import Mathlib

/-!
Verification development for the pixel-says repository (`src/lib.rs`).

The file embeds the text framer (whitespace normalization, word wrap,
speech-bubble drawing) and the image renderer (downscaling decision,
TrueColor / Monochrome / Invert pixel conversion) as executable Lean
definitions, and proves the specification's claims about them.

The Rust source computes luminance and the downscaling ratio in `f32`.
We model `f32` exactly: values are unreduced nonnegative fractions
(numerator/denominator over ℕ) and `roundF32` implements IEEE-754
round-to-nearest, ties-to-even for the normal range, which covers every
value arising in this program (all of them lie well inside
[2^-30, 2^32]).  Everything is executable by kernel reduction, so
concrete runs are checked by `decide`.
-/

namespace PixelSays

/-! ### Unreduced nonnegative fractions -/

/-- An unreduced fraction `num / den` of naturals.  All quantities the
renderer computes are nonnegative, so this suffices to model them. -/
structure PQ where
  num : ℕ
  den : ℕ
deriving DecidableEq

/-- Interpretation of a `PQ` as a rational number. -/
def toQ (p : PQ) : ℚ := (p.num : ℚ) / (p.den : ℚ)

def pqMul (p q : PQ) : PQ := ⟨p.num * q.num, p.den * q.den⟩

def pqDiv (p q : PQ) : PQ := ⟨p.num * q.den, p.den * q.num⟩

def pqAdd (p q : PQ) : PQ := ⟨p.num * q.den + q.num * p.den, p.den * q.den⟩

/-- Truncation toward zero (the effect of Rust's `as u8` / `as u32` on a
nonnegative `f32` value, before any saturation). -/
def pqFloor (p : PQ) : ℕ := p.num / p.den

/-! ### Floor of the base-2 logarithm, by fuelled structural recursion
(kernel-reducible, unlike the well-founded `Nat.log2`). -/

def nlog2F : ℕ → ℕ → ℕ
  | 0, _ => 0
  | fuel + 1, m => if m ≤ 1 then 0 else nlog2F fuel (m / 2) + 1

def nlog2 (m : ℕ) : ℕ := nlog2F m m

/-! ### Floor of the base-2 logarithm of a positive fraction -/

/-- `le2pow k a b` decides `2^k ≤ a/b` using only natural arithmetic. -/
def le2pow (k : ℤ) (a b : ℕ) : Bool :=
  if 0 ≤ k then decide (b * 2 ^ k.toNat ≤ a) else decide (b ≤ a * 2 ^ (-k).toNat)

/-- Floor of the base-2 logarithm of `a / b` for positive naturals. -/
def pqLog2 (a b : ℕ) : ℤ :=
  let k : ℤ := (nlog2 a : ℤ) - (nlog2 b : ℤ)
  if le2pow k a b then k else k - 1

/-! ### Round to nearest, ties to even -/

/-- Round the fraction `n / d` to the nearest integer, ties to even. -/
def rndEven (n d : ℕ) : ℕ :=
  if 2 * (n % d) < d then n / d
  else if d < 2 * (n % d) then n / d + 1
  else if (n / d) % 2 = 0 then n / d else n / d + 1

/-! ### The binary32 rounding function

`roundF32` maps an exact nonnegative rational to the value of the nearest
`f32` (round to nearest, ties to even), for inputs in the normal range.
Subnormals, overflow and negative values never occur in this program. -/

def roundF32 (p : PQ) : PQ :=
  if p.num = 0 then ⟨0, 1⟩
  else if 0 ≤ pqLog2 p.num p.den - 23 then
    ⟨rndEven p.num (p.den * 2 ^ (pqLog2 p.num p.den - 23).toNat) *
      2 ^ (pqLog2 p.num p.den - 23).toNat, 1⟩
  else
    ⟨rndEven (p.num * 2 ^ (-(pqLog2 p.num p.den - 23)).toNat) p.den,
      2 ^ (-(pqLog2 p.num p.den - 23)).toNat⟩

/-! ### Pixels and luminance (src/lib.rs, `convert_to_*`) -/

/-- An RGBA pixel (`image::Rgba([r, g, b, a])`); channels are byte values. -/
structure Rgba where
  r : ℕ
  g : ℕ
  b : ℕ
  a : ℕ
deriving DecidableEq

/-- The `f32` literal `0.2126`. -/
def lw1 : PQ := roundF32 ⟨2126, 10000⟩

/-- The `f32` literal `0.7152`. -/
def lw2 : PQ := roundF32 ⟨7152, 10000⟩

/-- The `f32` literal `0.0722`. -/
def lw3 : PQ := roundF32 ⟨722, 10000⟩

/-- Exact value of the `f32` expression
`0.2126 * r as f32 + 0.7152 * g as f32 + 0.0722 * b as f32`
(evaluated left to right, every operation rounded to `f32`). -/
def lumF32 (r g b : ℕ) : PQ :=
  roundF32 (pqAdd
    (roundF32 (pqAdd (roundF32 (pqMul lw1 ⟨r, 1⟩)) (roundF32 (pqMul lw2 ⟨g, 1⟩))))
    (roundF32 (pqMul lw3 ⟨b, 1⟩)))

/-- The `u8` luminance of `convert_to_monochrome` / `convert_to_invert`:
the `f32` weighted sum cast by `as u8` (truncation, saturating at 255). -/
def luminance (r g b : ℕ) : ℕ := min (pqFloor (lumF32 r g b)) 255

/-- Two solid block characters (`"██"`). -/
def blockPair : List Char := ['█', '█']

/-- Two blank characters (`"  "`). -/
def blankPair : List Char := [' ', ' ']

/-- Decimal digits of `n` (what Rust's `write!` prints for an unsigned
integer), by fuelled structural recursion. -/
def digitsAux : ℕ → ℕ → List Char
  | 0, _ => []
  | fuel + 1, n =>
    if n < 10 then [Char.ofNat (48 + n)]
    else digitsAux fuel (n / 10) ++ [Char.ofNat (48 + n % 10)]

def natChars (n : ℕ) : List Char := digitsAux (n + 1) n

/-- Per-pixel output of `convert_to_truecolor` (src/lib.rs 170-184):
blanks when alpha < 128, otherwise the ANSI 24-bit foreground color
escape, two blocks and a reset escape. -/
def truecolorPixel (p : Rgba) : List Char :=
  if p.a < 128 then blankPair
  else
    ['\x1b', '[', '3', '8', ';', '2', ';'] ++ natChars p.r ++ [';'] ++
      natChars p.g ++ [';'] ++ natChars p.b ++ ['m'] ++ blockPair ++
      ['\x1b', '[', '0', 'm']

/-- Per-pixel output of `convert_to_monochrome` (src/lib.rs 199-213). -/
def monoPixel (p : Rgba) : List Char :=
  if p.a < 128 then blankPair
  else if 128 < luminance p.r p.g p.b then blockPair else blankPair

/-- Per-pixel output of `convert_to_invert` (src/lib.rs 230-244). -/
def invertPixel (p : Rgba) : List Char :=
  if p.a < 128 then blankPair
  else if 128 < luminance p.r p.g p.b then blankPair else blockPair

/-! ### Images and row-major rendering -/

/-- A decoded raster: dimensions and a pixel accessor (`get_pixel x y`). -/
structure Image where
  width : ℕ
  height : ℕ
  pixel : ℕ → ℕ → Rgba

/-- Concatenation of `f` over a list (flat map, written out so that
induction and kernel reduction stay simple). -/
def joinMapL {α β : Type} (f : α → List β) : List α → List β
  | [] => []
  | x :: xs => f x ++ joinMapL f xs

/-- One output row: the per-pixel glyphs for `x = 0 .. width-1`, then the
newline written by `writeln!` at the end of the row loop. -/
def renderRow (f : Rgba → List Char) (img : Image) (y : ℕ) : List Char :=
  joinMapL (fun x => f (img.pixel x y)) (List.range img.width) ++ ['\n']

/-- Row-major traversal over `y = 0 .. height-1`. -/
def renderRows (f : Rgba → List Char) (img : Image) : List Char :=
  joinMapL (renderRow f img) (List.range img.height)

/-- Full output of `convert_to_truecolor` (src/lib.rs 164-189). -/
def convert_to_truecolor (img : Image) : List Char := renderRows truecolorPixel img

/-- Full output of `convert_to_monochrome` (src/lib.rs 192-220). -/
def convert_to_monochrome (img : Image) : List Char := renderRows monoPixel img

/-- Full output of `convert_to_invert` (src/lib.rs 223-251). -/
def convert_to_invert (img : Image) : List Char := renderRows invertPixel img

/-! ### Downscaling decision (src/lib.rs, `convert_image_to_text`) -/

/-- The requested dimensions computed by `convert_image_to_text`
(src/lib.rs 146-152): `ratio = 80f32 / max(w, h) as f32` and each
dimension becomes `(dim as f32 * ratio) as u32`, all in `f32`. -/
def requestedDims (w h : ℕ) : ℕ × ℕ :=
  (pqFloor (roundF32 (pqMul (roundF32 ⟨w, 1⟩)
      (roundF32 (pqDiv ⟨80, 1⟩ (roundF32 ⟨max w h, 1⟩))))),
   pqFloor (roundF32 (pqMul (roundF32 ⟨h, 1⟩)
      (roundF32 (pqDiv ⟨80, 1⟩ (roundF32 ⟨max w h, 1⟩))))))

/-- `⌊n/d + 1/2⌋`: round half up, which is `f64::round` (round half away
from zero) on the nonnegative values involved. -/
def rndHalfUp (n d : ℕ) : ℕ := (2 * n + d) / (2 * d)

/-- Modelled from the spec: the external `image` crate collaborator's
`resize` (called at src/lib.rs 154) "scales the image to the maximum
possible size that fits within the bounds specified" while preserving
aspect ratio.  Its `resize_dimensions` takes the smaller of the two axis
ratios and rounds each scaled dimension to the nearest integer, never
below 1; its `f64` arithmetic is modelled as exact rational arithmetic. -/
def resize_dimensions (w h nw nh : ℕ) : ℕ × ℕ :=
  if nw * h ≤ nh * w then
    (max (rndHalfUp (w * nw) w) 1, max (rndHalfUp (h * nw) w) 1)
  else
    (max (rndHalfUp (w * nh) h) 1, max (rndHalfUp (h * nh) h) 1)

/-- Output dimensions of `convert_image_to_text` (src/lib.rs 143-154): if
either input dimension exceeds 80 the requested dimensions are the
`f32`-scaled ones, otherwise the original ones; the image is then resized
to fit within those bounds. -/
def convert_image_to_text_dims (w h : ℕ) : ℕ × ℕ :=
  if 80 < w ∨ 80 < h then
    resize_dimensions w h (requestedDims w h).1 (requestedDims w h).2
  else
    resize_dimensions w h w h

/-! ### Whitespace normalization (src/lib.rs, `merge_white_spaces`) -/

/-- The character class of the regex `[^\S\r\n]` used by
`merge_white_spaces`: Unicode whitespace (the regex crate's `\s`) except
carriage return and line feed. -/
def mergeableWS (c : Char) : Bool :=
  c.toNat == 32 || c.toNat == 9 || c.toNat == 11 || c.toNat == 12 ||
  c.toNat == 0x85 || c.toNat == 0xA0 || c.toNat == 0x1680 ||
  (0x2000 ≤ c.toNat && c.toNat ≤ 0x200A) ||
  c.toNat == 0x2028 || c.toNat == 0x2029 || c.toNat == 0x202F ||
  c.toNat == 0x205F || c.toNat == 0x3000

/-- `merge_white_spaces` (src/lib.rs 326-329): `replace_all` of the regex
`([^\S\r\n])+` by a single space, i.e. every maximal run of non-newline
whitespace collapses to one `' '`. -/
def merge_white_spaces : List Char → List Char
  | [] => []
  | [c] => if mergeableWS c then [' '] else [c]
  | c :: d :: rest =>
    if mergeableWS c && mergeableWS d then merge_white_spaces (d :: rest)
    else (if mergeableWS c then ' ' else c) :: merge_white_spaces (d :: rest)

/-- Decomposition of a string into maximal runs of characters that agree
on `mergeableWS` (used to state what `replace_all` does). -/
def splitRuns : List Char → List (List Char)
  | [] => []
  | [c] => [[c]]
  | c :: d :: rest =>
    match splitRuns (d :: rest) with
    | [] => [[c]]
    | g :: gs =>
      if mergeableWS c == mergeableWS d then (c :: g) :: gs else [c] :: g :: gs

/-- Replace each run that consists of mergeable whitespace by one space,
keep every other run: the literal reading of the spec sentence about
whitespace normalization. -/
def collapseRuns (rs : List (List Char)) : List Char :=
  joinMapL (fun g => if g.any mergeableWS then [' '] else g) rs

/-! ### Word wrap (the external `textwrap::fill` collaborator)

Modelled from the spec: the word-wrap collaborator provides "greedy
wrapping given text and a column budget" (§6): break at whitespace
boundaries, fit as many blank-separated words per line as the width
allows, and place a token wider than the budget on a line of its own,
overflowing without hyphenation (§4.1 step 2, §8).  Explicit newlines
split the text into separately wrapped segments (§4.1 step 1).  `cw`
gives the display width of one character (the external display-width
collaborator). -/

/-- Display width of a string: sum of per-character widths. -/
def lineWidth (cw : Char → ℕ) (l : List Char) : ℕ := (l.map cw).sum

/-- Split a segment into blank-separated words (accumulator holds the
current word reversed). -/
def wordsAux (cur : List Char) : List Char → List (List Char)
  | [] => if cur = [] then [] else [cur.reverse]
  | c :: rest =>
    if c = ' ' then
      if cur = [] then wordsAux [] rest else cur.reverse :: wordsAux [] rest
    else wordsAux (c :: cur) rest

def words (l : List Char) : List (List Char) := wordsAux [] l

/-- Greedy fitting: `cur` is the line under construction, `curW` its
display width. -/
def greedyAux (cw : Char → ℕ) (w : ℕ) (cur : List Char) (curW : ℕ) :
    List (List Char) → List (List Char)
  | [] => [cur]
  | word :: rest =>
    if curW + 1 + lineWidth cw word ≤ w then
      greedyAux cw w (cur ++ ' ' :: word) (curW + 1 + lineWidth cw word) rest
    else
      cur :: greedyAux cw w word (lineWidth cw word) rest

/-- Wrap one newline-free segment. -/
def greedyWrap (cw : Char → ℕ) (w : ℕ) : List (List Char) → List (List Char)
  | [] => [[]]
  | word :: rest => greedyAux cw w word (lineWidth cw word) rest

/-- Split a text at `'\n'` into segments (`n` newlines give `n + 1`
segments). -/
def splitNl : List Char → List (List Char)
  | [] => [[]]
  | c :: cs =>
    if c = '\n' then [] :: splitNl cs
    else
      match splitNl cs with
      | [] => [[c]]
      | s :: ss => (c :: s) :: ss

/-- All wrapped lines of a text, in order. -/
def fillLines (cw : Char → ℕ) (w : ℕ) (text : List Char) : List (List Char) :=
  joinMapL (fun seg => greedyWrap cw w (words seg)) (splitNl text)

/-- Join lines with `'\n'` separators (no trailing newline). -/
def joinLines : List (List Char) → List Char
  | [] => []
  | [l] => l
  | l :: l2 :: ls => l ++ '\n' :: joinLines (l2 :: ls)

/-- `textwrap::fill`: the wrapped lines joined by newlines. -/
def fill (cw : Char → ℕ) (w : ℕ) (text : List Char) : List Char :=
  joinLines (fillLines cw w text)

/-! ### Rust `str::lines` -/

/-- Remove one trailing carriage return (Rust `lines` treats `\r\n` as a
line ending). -/
def stripCR (l : List Char) : List Char :=
  if l.getLast? = some '\x0d' then l.dropLast else l

/-- Rust `str::lines()`: split at `'\n'`, drop a final empty segment (the
final line ending is optional), strip `'\r'` before each `'\n'`. -/
def rustLines (s : List Char) : List (List Char) :=
  (splitNl s).dropLast.map stripCR ++
    (match (splitNl s).getLast? with
     | some l => if l = [] then [] else [l]
     | none => [])

/-! ### The speech bubble (src/lib.rs, `say_from_dynamic_image` / `say`) -/

/-- The lines the bubble is built from:
`fill(merge_white_spaces(message), max_width).lines()`. -/
def sayLines (cw : Char → ℕ) (w : ℕ) (msg : List Char) : List (List Char) :=
  rustLines (fill cw w (merge_white_spaces msg))

/-- `longest_line` (src/lib.rs 318-324): maximum display width of the
lines, `0` when there are none. -/
def longest_line (cw : Char → ℕ) (lines : List (List Char)) : ℕ :=
  (lines.map (lineWidth cw)).foldr max 0

/-- Right-pad a line with blanks up to `aw` display columns
(the `for _ in line_len..actual_width` loop). -/
def padTo (cw : Char → ℕ) (aw : ℕ) (l : List Char) : List Char :=
  l ++ List.replicate (aw - lineWidth cw l) ' '

/-- The two characters written before a body line (first `if` chain of
the loop at src/lib.rs 90-99). -/
def bodyPre (count i : ℕ) : List Char :=
  if count = 1 then ['<', ' ']
  else if i = 0 then ['/', ' ']
  else if i = count - 1 then ['\\', ' ']
  else ['|', ' ']

/-- The characters written after the padded line (second `if` chain,
src/lib.rs 107-115), including the newline. -/
def bodySuf (count i : ℕ) : List Char :=
  if count = 1 then [' ', '>', '\n']
  else if i = 0 then [' ', '\\', '\n']
  else if i = count - 1 then [' ', '/', '\n']
  else [' ', '|', '\n']

/-- One emitted body line. -/
def bodyChunk (cw : Char → ℕ) (aw count i : ℕ) (l : List Char) : List Char :=
  bodyPre count i ++ padTo cw aw l ++ bodySuf count i

/-- The message body: one chunk per line, tracking the loop index. -/
def bubbleBodyAux (cw : Char → ℕ) (aw count : ℕ) : ℕ → List (List Char) → List Char
  | _, [] => []
  | i, l :: ls => bodyChunk cw aw count i l ++ bubbleBodyAux cw aw count (i + 1) ls

def bubbleBody (cw : Char → ℕ) (aw count : ℕ) (lines : List (List Char)) : List Char :=
  bubbleBodyAux cw aw count 0 lines

/-- Top border: one space, `actual_width + 2` underscores, newline
(src/lib.rs 82-87). -/
def topBorder (aw : ℕ) : List Char := ' ' :: List.replicate (aw + 2) '_' ++ ['\n']

/-- Bottom border: one space, `actual_width + 2` dashes
(src/lib.rs 118-122; the trailing newline is pushed separately). -/
def bottomBorder (aw : ℕ) : List Char := ' ' :: List.replicate (aw + 2) '-'

/-- The connector written after the bubble by `say_from_dynamic_image`
(src/lib.rs 125-127). -/
def connector : List Char :=
  List.replicate 8 ' ' ++ ['\\', '\n'] ++ List.replicate 9 ' ' ++ ['\\', '\n']

/-- The bubble part of `say_from_dynamic_image` (src/lib.rs 73-123):
top border, body, bottom border and its newline. -/
def sayBubble (cw : Char → ℕ) (w : ℕ) (msg : List Char) : List Char :=
  topBorder (longest_line cw (sayLines cw w msg)) ++
    bubbleBody cw (longest_line cw (sayLines cw w msg))
      (sayLines cw w msg).length (sayLines cw w msg) ++
    bottomBorder (longest_line cw (sayLines cw w msg)) ++ ['\n']

/-- Everything `say_from_dynamic_image` writes: the bubble, the connector
and then the rendered image text (`imageText` stands for the output of
`convert_image_to_text` on the externally resized raster). -/
def say_from_dynamic_image_out (cw : Char → ℕ) (msg : List Char) (w : ℕ)
    (imageText : List Char) : List Char :=
  sayBubble cw w msg ++ connector ++ imageText

/-- The built-in mascot of `say` (src/lib.rs 258-265), byte for byte. -/
def MASCOT : List Char :=
  '\n' :: List.replicate 8 ' ' ++ ['\\', '\n'] ++
    List.replicate 9 ' ' ++ ['\\', '\n'] ++
    (List.replicate 12 ' ' ++ ['_', '~', '^', '~', '^', '~', '_', '\n']) ++
    (List.replicate 8 ' ' ++ ['\\', ')', ' ', '/', ' ', ' ', 'o', ' ', 'o', ' ', ' ', '\\', ' ', '(', '/', '\n']) ++
    (List.replicate 10 ' ' ++ [Char.ofNat 39, '_', ' ', ' ', ' ', '-', ' ', ' ', ' ', '_', Char.ofNat 39, '\n']) ++
    (List.replicate 10 ' ' ++ ['/', ' ', Char.ofNat 39, '-', '-', '-', '-', '-', Char.ofNat 39, ' ', '\\', '\n'])

/-- Everything `say` writes (src/lib.rs 254-316): the same bubble but
without the trailing newline after the dashes, then the mascot. -/
def say_out (cw : Char → ℕ) (msg : List Char) (w : ℕ) : List Char :=
  topBorder (longest_line cw (sayLines cw w msg)) ++
    bubbleBody cw (longest_line cw (sayLines cw w msg))
      (sayLines cw w msg).length (sayLines cw w msg) ++
    bottomBorder (longest_line cw (sayLines cw w msg)) ++ MASCOT

/-! ### The pixel-mode selection and the writer-threaded entry points -/

inductive PixelMode where
  | TrueColor
  | Monochrome
  | Invert
deriving DecidableEq

/-- The renderer selected by `convert_image_to_text` (src/lib.rs 156-160),
applied to the already-resized raster. -/
def convert_image_to_text_rendered (img : Image) (mode : PixelMode) : List Char :=
  match mode with
  | PixelMode.TrueColor => convert_to_truecolor img
  | PixelMode.Monochrome => convert_to_monochrome img
  | PixelMode.Invert => convert_to_invert img

/-- An output sink: a state transformer that appends bytes and may fail
with an I/O error. -/
def Writer (σ : Type) : Type := σ → List Char → Except String σ

/-- The per-pixel `write!` calls and per-row `writeln!` of the three
`convert_to_*` loops, threaded through a fallible sink. -/
def writeRows {σ : Type} (f : Rgba → List Char) (img : Image) (wr : Writer σ)
    (s : σ) : Except String σ :=
  (List.range img.height).foldlM
    (fun st y => do
      let st2 ← (List.range img.width).foldlM
        (fun st2 x => wr st2 (f (img.pixel x y))) st
      wr st2 ['\n'])
    s

def convert_image_to_text_w {σ : Type} (img : Image) (mode : PixelMode)
    (wr : Writer σ) (s : σ) : Except String σ :=
  match mode with
  | PixelMode.TrueColor => writeRows truecolorPixel img wr s
  | PixelMode.Monochrome => writeRows monoPixel img wr s
  | PixelMode.Invert => writeRows invertPixel img wr s

/-- `say_from_dynamic_image` (src/lib.rs 63-136): buffers the bubble and
connector, writes them with one `write_all`, then renders the image.
`resizeF` stands for the external decode-independent resizing step. -/
def say_from_dynamic_image_w {σ : Type} (cw : Char → ℕ) (img : Image)
    (msg : List Char) (w : ℕ) (mode : PixelMode) (resizeF : Image → Image)
    (wr : Writer σ) (s : σ) : Except String σ := do
  let s1 ← wr s (sayBubble cw w msg ++ connector)
  convert_image_to_text_w (resizeF img) mode wr s1

/-- `say_from_image` (src/lib.rs 43-60): maps a decoder failure to an
input error whose message wraps the decoder's message, otherwise hands
the decoded image to `say_from_dynamic_image`. -/
def say_from_image_w {σ : Type} (cw : Char → ℕ)
    (decodeResult : Except String Image) (msg : List Char) (w : ℕ)
    (mode : PixelMode) (resizeF : Image → Image) (wr : Writer σ) (s : σ) :
    Except String σ :=
  match decodeResult with
  | Except.error e => Except.error ("无法加载图片: " ++ e)
  | Except.ok img => say_from_dynamic_image_w cw img msg w mode resizeF wr s

/-- The always-succeeding appending sink. -/
def appendWriter : Writer (List Char) := fun s bs => Except.ok (s ++ bs)

/-! ## Theorems -/

/-! ### Generic list lemmas for the embedding -/

theorem joinMapL_map {α β γ : Type} (f : β → List γ) (g : α → β) (l : List α) :
    joinMapL f (l.map g) = joinMapL (fun x => f (g x)) l := by
  induction l with
  | nil => rfl
  | cons x xs ih => simp only [List.map_cons, joinMapL, ih]

theorem joinMapL_mem {α β : Type} (f : α → List β) (l : List α) (a : β)
    (h : a ∈ joinMapL f l) : ∃ x ∈ l, a ∈ f x := by
  induction l with
  | nil => cases h
  | cons x xs ih =>
    simp only [joinMapL, List.mem_append] at h
    rcases h with h | h
    · exact ⟨x, List.mem_cons_self x xs, h⟩
    · obtain ⟨y, hy, hay⟩ := ih h
      exact ⟨y, List.mem_cons_of_mem x hy, hay⟩

theorem joinMapL_length_const {α β : Type} (f : α → List β) (l : List α) (k : ℕ)
    (h : ∀ x ∈ l, (f x).length = k) : (joinMapL f l).length = k * l.length := by
  induction l with
  | nil => simp [joinMapL]
  | cons x xs ih =>
    simp only [joinMapL, List.length_append, List.length_cons]
    rw [h x (List.mem_cons_self x xs), ih (fun y hy => h y (List.mem_cons_of_mem x hy))]
    ring

theorem getLast?_mem {α : Type} (l : List α) (a : α) (h : l.getLast? = some a) :
    a ∈ l := by
  induction l with
  | nil => simp at h
  | cons x xs ih =>
    cases xs with
    | nil =>
      simp only [List.getLast?_singleton, Option.some.injEq] at h
      simp [h]
    | cons y ys =>
      rw [List.getLast?_cons_cons] at h
      exact List.mem_cons_of_mem x (ih h)

theorem stripCR_eq_of_not_mem (l : List Char) (h : '\x0d' ∉ l) : stripCR l = l := by
  unfold stripCR
  by_cases hc : l.getLast? = some '\x0d'
  · exact absurd (getLast?_mem l _ hc) h
  · rw [if_neg hc]

theorem splitNl_ne_nil (l : List Char) : splitNl l ≠ [] := by
  cases l with
  | nil => simp [splitNl]
  | cons c cs =>
    unfold splitNl
    by_cases hc : c = '\n'
    · simp [hc]
    · rw [if_neg hc]
      rcases hs : splitNl cs with _ | ⟨s, ss⟩ <;> simp

theorem splitNl_cons (c : Char) (cs : List Char) :
    splitNl (c :: cs) = if c = '\n' then [] :: splitNl cs
      else match splitNl cs with
        | [] => [[c]]
        | s :: ss => (c :: s) :: ss := rfl

theorem splitNl_append_row (r rest : List Char) (h : '\n' ∉ r) :
    splitNl (r ++ '\n' :: rest) = r :: splitNl rest := by
  induction r with
  | nil =>
    simp only [List.nil_append]
    rw [splitNl_cons, if_pos rfl]
  | cons c r' ih =>
    have hc : c ≠ '\n' := fun hcc => h (hcc ▸ List.mem_cons_self c r')
    have h' : '\n' ∉ r' := fun hmem => h (List.mem_cons_of_mem c hmem)
    simp only [List.cons_append]
    rw [splitNl_cons, if_neg hc, ih h']

/-- Splitting the concatenation of newline-terminated rows recovers the
rows plus a final empty segment. -/
theorem splitNl_rows (rows : List (List Char)) (h : ∀ r ∈ rows, '\n' ∉ r) :
    splitNl (joinMapL (fun r => r ++ ['\n']) rows) = rows ++ [[]] := by
  induction rows with
  | nil => rfl
  | cons r rs ih =>
    simp only [joinMapL, List.append_assoc, List.singleton_append]
    rw [splitNl_append_row r _ (h r (List.mem_cons_self r rs))]
    rw [ih (fun y hy => h y (List.mem_cons_of_mem r hy))]
    rfl

/-- `rustLines` of newline-terminated rows that neither contain `'\n'`
nor end in `'\r'` gives back exactly the rows. -/
theorem rustLines_rows (rows : List (List Char))
    (h : ∀ r ∈ rows, '\n' ∉ r ∧ stripCR r = r) :
    rustLines (joinMapL (fun r => r ++ ['\n']) rows) = rows := by
  unfold rustLines
  rw [splitNl_rows rows (fun r hr => (h r hr).1)]
  rw [List.dropLast_concat, List.getLast?_concat]
  simp
  calc List.map stripCR rows
      = List.map id rows := List.map_congr_left (fun r hr => (h r hr).2)
    _ = rows := List.map_id rows

theorem toQ_mul (p q : PQ) : toQ (pqMul p q) = toQ p * toQ q := by
  simp only [toQ, pqMul]
  push_cast
  rw [div_mul_div_comm]

theorem toQ_div (p q : PQ) : toQ (pqDiv p q) = toQ p / toQ q := by
  simp only [toQ, pqDiv]
  push_cast
  simp only [div_eq_mul_inv, mul_inv, inv_inv]
  ring

theorem toQ_add (p q : PQ) (hp : 0 < p.den) (hq : 0 < q.den) :
    toQ (pqAdd p q) = toQ p + toQ q := by
  have hp' : ((p.den : ℚ)) ≠ 0 := by positivity
  have hq' : ((q.den : ℚ)) ≠ 0 := by positivity
  simp only [toQ, pqAdd]
  push_cast
  rw [div_add_div _ _ hp' hq']
  ring_nf

theorem pqFloor_eq (p : PQ) : pqFloor p = ⌊toQ p⌋₊ := by
  simp only [toQ, pqFloor]
  exact (Nat.floor_div_nat (α := ℚ) p.num p.den).symm

theorem nlog2F_spec : ∀ fuel m, 1 ≤ m → m ≤ fuel →
    2 ^ nlog2F fuel m ≤ m ∧ m < 2 ^ (nlog2F fuel m + 1) := by
  intro fuel
  induction fuel with
  | zero => intro m h1 h2; omega
  | succ n ih =>
    intro m h1 h2
    by_cases hm : m ≤ 1
    · have hm1 : m = 1 := by omega
      simp [nlog2F, hm, hm1]
    · have hd1 : 1 ≤ m / 2 := by omega
      have hd2 : m / 2 ≤ n := by omega
      have ihm := ih (m / 2) hd1 hd2
      simp only [nlog2F, if_neg hm]
      constructor
      · have h2m : 2 ^ (nlog2F n (m / 2) + 1) = 2 * 2 ^ nlog2F n (m / 2) := by ring
        rw [h2m]
        omega
      · have h2m : 2 ^ (nlog2F n (m / 2) + 1 + 1) = 2 * 2 ^ (nlog2F n (m / 2) + 1) := by ring
        rw [h2m]
        omega

theorem nlog2_spec (m : ℕ) (hm : 1 ≤ m) :
    2 ^ nlog2 m ≤ m ∧ m < 2 ^ (nlog2 m + 1) :=
  nlog2F_spec m m hm le_rfl

theorem le2pow_iff (k : ℤ) (a b : ℕ) (hb : 0 < b) :
    le2pow k a b = true ↔ (2 : ℚ) ^ k ≤ (a : ℚ) / b := by
  have hbq : (0 : ℚ) < (b : ℚ) := by exact_mod_cast hb
  unfold le2pow
  by_cases hk : 0 ≤ k
  · rw [if_pos hk, decide_eq_true_eq, le_div_iff hbq]
    rw [show (2 : ℚ) ^ k = ((2 ^ k.toNat : ℕ) : ℚ) by
      push_cast; rw [← zpow_natCast]; congr 1; omega]
    rw [show ((2 ^ k.toNat : ℕ) : ℚ) * (b : ℚ) = ((2 ^ k.toNat * b : ℕ) : ℚ) by
      push_cast; ring]
    rw [Nat.cast_le, Nat.mul_comm]
  · rw [if_neg hk, decide_eq_true_eq]
    have htpos : (0 : ℚ) < ((2 ^ (-k).toNat : ℕ) : ℚ) := by positivity
    rw [show (2 : ℚ) ^ k = ((2 ^ (-k).toNat : ℕ) : ℚ)⁻¹ by
      push_cast; rw [← zpow_natCast, ← zpow_neg]; congr 1; omega]
    rw [le_div_iff hbq, inv_mul_eq_div, div_le_iff htpos]
    rw [show (a : ℚ) * ((2 ^ (-k).toNat : ℕ) : ℚ) = ((a * 2 ^ (-k).toNat : ℕ) : ℚ) by
      push_cast; ring]
    rw [Nat.cast_le]

theorem pqLog2_spec (a b : ℕ) (ha : 0 < a) (hb : 0 < b) :
    (2 : ℚ) ^ pqLog2 a b ≤ (a : ℚ) / b ∧ (a : ℚ) / b < 2 ^ (pqLog2 a b + 1) := by
  have hbq : (0 : ℚ) < (b : ℚ) := by exact_mod_cast hb
  have haq : (0 : ℚ) < (a : ℚ) := by exact_mod_cast ha
  obtain ⟨hal, hau⟩ := nlog2_spec a ha
  obtain ⟨hbl, hbu⟩ := nlog2_spec b hb
  have hauq : (a : ℚ) < 2 ^ (nlog2 a + 1) := by exact_mod_cast hau
  have halq : (2 : ℚ) ^ nlog2 a ≤ (a : ℚ) := by exact_mod_cast hal
  have hbuq : (b : ℚ) < 2 ^ (nlog2 b + 1) := by exact_mod_cast hbu
  have hblq : (2 : ℚ) ^ nlog2 b ≤ (b : ℚ) := by exact_mod_cast hbl
  unfold pqLog2
  set k : ℤ := (nlog2 a : ℤ) - (nlog2 b : ℤ) with hk
  by_cases hle : le2pow k a b = true
  · rw [if_pos hle]
    refine ⟨(le2pow_iff k a b hb).mp hle, ?_⟩
    rw [show k + 1 = ((nlog2 a + 1 : ℕ) : ℤ) - ((nlog2 b : ℕ) : ℤ) by push_cast; omega]
    rw [zpow_sub₀ (by norm_num : (2 : ℚ) ≠ 0), zpow_natCast, zpow_natCast]
    rw [div_lt_div_iff hbq (by positivity)]
    exact lt_of_lt_of_le
      (mul_lt_mul_of_pos_right hauq (by positivity))
      (mul_le_mul_of_nonneg_left hblq (by positivity))
  · rw [if_neg hle]
    have hgt : (a : ℚ) / b < 2 ^ k :=
      not_le.mp fun h => hle ((le2pow_iff k a b hb).mpr h)
    constructor
    · rw [show k - 1 = ((nlog2 a : ℕ) : ℤ) - ((nlog2 b + 1 : ℕ) : ℤ) by push_cast; omega]
      rw [zpow_sub₀ (by norm_num : (2 : ℚ) ≠ 0), zpow_natCast, zpow_natCast]
      rw [div_le_div_iff (by positivity) hbq]
      exact le_trans
        (mul_le_mul_of_nonneg_left (le_of_lt hbuq) (by positivity))
        (mul_le_mul_of_nonneg_right halq (by positivity))
    · rw [show k - 1 + 1 = k by ring]
      exact hgt

theorem rndEven_bounds (n d : ℕ) (hd : 0 < d) :
    (n : ℚ) / d - 1 / 2 ≤ (rndEven n d : ℚ) ∧ (rndEven n d : ℚ) ≤ (n : ℚ) / d + 1 / 2 := by
  have hdq : (0 : ℚ) < (d : ℚ) := by exact_mod_cast hd
  have hdq' : (d : ℚ) ≠ 0 := ne_of_gt hdq
  have hmod : n % d < d := Nat.mod_lt n hd
  have hkey : (n : ℚ) / d = ((n / d : ℕ) : ℚ) + ((n % d : ℕ) : ℚ) / d := by
    rw [show ((n / d : ℕ) : ℚ) + ((n % d : ℕ) : ℚ) / d
        = ((d * (n / d) + n % d : ℕ) : ℚ) / d by push_cast; field_simp; ring]
    rw [Nat.div_add_mod]
  have h0 : (0 : ℚ) ≤ ((n % d : ℕ) : ℚ) / d := by positivity
  have h1 : ((n % d : ℕ) : ℚ) / d < 1 := by
    rw [div_lt_one hdq]; exact_mod_cast hmod
  unfold rndEven
  by_cases hc1 : 2 * (n % d) < d
  · rw [if_pos hc1]
    have hhalf : ((n % d : ℕ) : ℚ) / d ≤ 1 / 2 := by
      rw [div_le_iff hdq]
      have hcast : ((2 * (n % d) : ℕ) : ℚ) ≤ (d : ℚ) := by exact_mod_cast le_of_lt hc1
      push_cast at hcast
      linarith
    exact ⟨by linarith [hkey], by linarith [hkey]⟩
  · rw [if_neg hc1]
    by_cases hc2 : d < 2 * (n % d)
    · rw [if_pos hc2]
      have hhalf : 1 / 2 ≤ ((n % d : ℕ) : ℚ) / d := by
        rw [le_div_iff hdq]
        have hcast : (d : ℚ) ≤ ((2 * (n % d) : ℕ) : ℚ) := by exact_mod_cast le_of_lt hc2
        push_cast at hcast
        linarith
      push_cast
      exact ⟨by linarith [hkey], by linarith [hkey]⟩
    · rw [if_neg hc2]
      have htie : 2 * (n % d) = d := by omega
      have hhalf : ((n % d : ℕ) : ℚ) / d = 1 / 2 := by
        rw [div_eq_div_iff hdq' (by norm_num : (2 : ℚ) ≠ 0)]
        have hcast : ((2 * (n % d) : ℕ) : ℚ) = (d : ℚ) := by exact_mod_cast htie
        push_cast at hcast
        linarith
      by_cases hc3 : (n / d) % 2 = 0
      · rw [if_pos hc3]
        exact ⟨by linarith [hkey], by linarith [hkey]⟩
      · rw [if_neg hc3]
        push_cast
        exact ⟨by linarith [hkey], by linarith [hkey]⟩

theorem roundF32_den_pos (p : PQ) : 0 < (roundF32 p).den := by
  unfold roundF32
  by_cases h : p.num = 0
  · rw [if_pos h]
    exact Nat.one_pos
  · rw [if_neg h]
    by_cases he : 0 ≤ pqLog2 p.num p.den - 23
    · rw [if_pos he]
      exact Nat.one_pos
    · rw [if_neg he]
      exact pow_pos (by norm_num) _

/-- Relative error bound: a mantissa-range value `m ≥ 2^23` rounded to
within `1/2` stays within relative error `2^-24`. -/
theorem relErr_of_half (m R : ℚ) (hm : 2 ^ 23 ≤ m)
    (hlo : m - 1 / 2 ≤ R) (hhi : R ≤ m + 1 / 2) :
    m * (1 - 1 / 16777216) ≤ R ∧ R ≤ m * (1 + 1 / 16777216) := by
  constructor <;> nlinarith

theorem roundF32_spec (p : PQ) (hn : 0 < p.num) (hd : 0 < p.den) :
    0 < (roundF32 p).num ∧
    toQ p * (1 - 1 / 16777216) ≤ toQ (roundF32 p) ∧
    toQ (roundF32 p) ≤ toQ p * (1 + 1 / 16777216) := by
  have hnq : (0 : ℚ) < (p.num : ℚ) := by exact_mod_cast hn
  have hdq : (0 : ℚ) < (p.den : ℚ) := by exact_mod_cast hd
  have hq : 0 < toQ p := by unfold toQ; positivity
  obtain ⟨hEl, hEu⟩ := pqLog2_spec p.num p.den hn hd
  unfold roundF32
  rw [if_neg (Nat.pos_iff_ne_zero.mp hn)]
  by_cases he : 0 ≤ pqLog2 p.num p.den - 23
  · rw [if_pos he]
    set t : ℕ := (pqLog2 p.num p.den - 23).toNat with ht
    have hE : pqLog2 p.num p.den = ((t + 23 : ℕ) : ℤ) := by push_cast; omega
    have hD : (0 : ℚ) < ((p.den * 2 ^ t : ℕ) : ℚ) := by positivity
    have htp : (0 : ℚ) < (2 : ℚ) ^ t := by positivity
    obtain ⟨hRl, hRu⟩ := rndEven_bounds p.num (p.den * 2 ^ t)
      (Nat.mul_pos hd (pow_pos (by norm_num) t))
    set R : ℕ := rndEven p.num (p.den * 2 ^ t) with hR
    set m : ℚ := (p.num : ℚ) / ((p.den * 2 ^ t : ℕ) : ℚ) with hm
    have hEl' : (2 : ℚ) ^ (t + 23) * (p.den : ℚ) ≤ (p.num : ℚ) := by
      have h1 : (2 : ℚ) ^ pqLog2 p.num p.den * (p.den : ℚ) ≤ (p.num : ℚ) := by
        rw [← le_div_iff hdq]; exact hEl
      rw [hE, zpow_natCast] at h1
      exact h1
    have hm23 : (2 : ℚ) ^ 23 ≤ m := by
      rw [hm, le_div_iff hD]
      push_cast
      calc (2 : ℚ) ^ 23 * ((p.den : ℚ) * 2 ^ t)
          = 2 ^ (t + 23) * (p.den : ℚ) := by rw [pow_add]; ring
        _ ≤ (p.num : ℚ) := hEl'
    obtain ⟨hrl, hru⟩ := relErr_of_half m R hm23 hRl hRu
    have hRpos : 0 < R := by
      have hq1 : (0 : ℚ) < (R : ℚ) := by nlinarith
      exact_mod_cast hq1
    have hres : toQ (⟨R * 2 ^ t, 1⟩ : PQ) = (R : ℚ) * 2 ^ t := by
      unfold toQ
      push_cast
      norm_num
    have hqm : toQ p = m * 2 ^ t := by
      rw [hm]
      unfold toQ
      push_cast
      field_simp
      ring
    refine ⟨Nat.mul_pos hRpos (pow_pos (by norm_num) t), ?_, ?_⟩
    · rw [hres, hqm]
      nlinarith [mul_le_mul_of_nonneg_right hrl (le_of_lt htp)]
    · rw [hres, hqm]
      nlinarith [mul_le_mul_of_nonneg_right hru (le_of_lt htp)]
  · rw [if_neg he]
    set t : ℕ := (-(pqLog2 p.num p.den - 23)).toNat with ht
    have hE : pqLog2 p.num p.den = ((23 : ℕ) : ℤ) - (t : ℤ) := by push_cast; omega
    have htp : (0 : ℚ) < (2 : ℚ) ^ t := by positivity
    obtain ⟨hRl, hRu⟩ := rndEven_bounds (p.num * 2 ^ t) p.den hd
    set R : ℕ := rndEven (p.num * 2 ^ t) p.den with hR
    set m : ℚ := ((p.num * 2 ^ t : ℕ) : ℚ) / (p.den : ℚ) with hm
    have hEl' : (2 : ℚ) ^ (23 : ℕ) * (p.den : ℚ) ≤ (p.num : ℚ) * 2 ^ t := by
      have h1 : (2 : ℚ) ^ pqLog2 p.num p.den * (p.den : ℚ) ≤ (p.num : ℚ) := by
        rw [← le_div_iff hdq]; exact hEl
      rw [hE, zpow_sub₀ (by norm_num : (2 : ℚ) ≠ 0), zpow_natCast, zpow_natCast] at h1
      rw [div_mul_eq_mul_div, div_le_iff htp] at h1
      linarith
    have hm23 : (2 : ℚ) ^ 23 ≤ m := by
      rw [hm, le_div_iff hdq]
      push_cast
      exact hEl'
    obtain ⟨hrl, hru⟩ := relErr_of_half m R hm23 hRl hRu
    have hRpos : 0 < R := by
      have hq1 : (0 : ℚ) < (R : ℚ) := by nlinarith
      exact_mod_cast hq1
    have hres : toQ (⟨R, 2 ^ t⟩ : PQ) = (R : ℚ) / 2 ^ t := by
      unfold toQ
      push_cast
      ring
    have hqm : toQ p = m / 2 ^ t := by
      rw [hm]
      unfold toQ
      push_cast
      field_simp
      ring
    refine ⟨hRpos, ?_, ?_⟩
    · rw [hres, hqm]
      rw [div_mul_eq_mul_div]
      exact (div_le_div_right htp).mpr hrl
    · rw [hres, hqm]
      rw [div_mul_eq_mul_div]
      exact (div_le_div_right htp).mpr hru

/-- `roundF32` at a zero numerator gives exactly zero. -/
theorem roundF32_zero (p : PQ) (h : p.num = 0) : roundF32 p = ⟨0, 1⟩ := by
  unfold roundF32
  rw [if_pos h]

/-- Error bounds that also cover the zero case. -/
theorem roundF32_bounds (p : PQ) (hd : 0 < p.den) :
    toQ p * (1 - 1 / 16777216) ≤ toQ (roundF32 p) ∧
    toQ (roundF32 p) ≤ toQ p * (1 + 1 / 16777216) := by
  by_cases hn : p.num = 0
  · rw [roundF32_zero p hn]
    unfold toQ
    rw [hn]
    norm_num
  · exact (roundF32_spec p (Nat.pos_of_ne_zero hn) hd).2

/-! ### Row-major renderer structure -/

theorem monoPixel_cases (p : Rgba) :
    monoPixel p = blockPair ∨ monoPixel p = blankPair := by
  unfold monoPixel
  by_cases h1 : p.a < 128
  · rw [if_pos h1]; right; rfl
  · rw [if_neg h1]
    by_cases h2 : 128 < luminance p.r p.g p.b
    · rw [if_pos h2]; left; rfl
    · rw [if_neg h2]; right; rfl

theorem invertPixel_cases (p : Rgba) :
    invertPixel p = blockPair ∨ invertPixel p = blankPair := by
  unfold invertPixel
  by_cases h1 : p.a < 128
  · rw [if_pos h1]; right; rfl
  · rw [if_neg h1]
    by_cases h2 : 128 < luminance p.r p.g p.b
    · rw [if_pos h2]; right; rfl
    · rw [if_neg h2]; left; rfl

/-- The lines of a row-major rendering whose per-pixel output is a block
pair or a blank pair. -/
theorem renderRows_lines (f : Rgba → List Char) (img : Image)
    (hf : ∀ p, f p = blockPair ∨ f p = blankPair) :
    rustLines (renderRows f img)
      = (List.range img.height).map
          (fun y => joinMapL (fun x => f (img.pixel x y)) (List.range img.width)) := by
  unfold renderRows renderRow
  rw [show joinMapL
        (fun y => joinMapL (fun x => f (img.pixel x y)) (List.range img.width) ++ ['\n'])
        (List.range img.height)
      = joinMapL (fun r => r ++ ['\n'])
          ((List.range img.height).map
            (fun y => joinMapL (fun x => f (img.pixel x y)) (List.range img.width)))
      by rw [joinMapL_map]]
  apply rustLines_rows
  intro r hr
  simp only [List.mem_map] at hr
  obtain ⟨y, _, rfl⟩ := hr
  constructor
  · intro hmem
    obtain ⟨x, _, hchar⟩ := joinMapL_mem _ _ _ hmem
    rcases hf (img.pixel x y) with hb | hb <;> rw [hb] at hchar <;>
      exact absurd hchar (by decide)
  · apply stripCR_eq_of_not_mem
    intro hmem
    obtain ⟨x, _, hchar⟩ := joinMapL_mem _ _ _ hmem
    rcases hf (img.pixel x y) with hb | hb <;> rw [hb] at hchar <;>
      exact absurd hchar (by decide)

/-- Shape of a block/blank row-major rendering: `height` lines, each a
join of `width` glyph pairs, each line `2·width` characters, and no
escape character anywhere. -/
theorem renderRows_shape (f : Rgba → List Char) (img : Image)
    (hf : ∀ p, f p = blockPair ∨ f p = blankPair) :
    (rustLines (renderRows f img)).length = img.height ∧
    (∀ l ∈ rustLines (renderRows f img), ∃ ps : List (List Char),
      ps.length = img.width ∧ (∀ q ∈ ps, q = blockPair ∨ q = blankPair) ∧
      l = joinMapL id ps ∧ l.length = 2 * img.width) ∧
    '\x1b' ∉ renderRows f img := by
  have hlines := renderRows_lines f img hf
  refine ⟨?_, ?_, ?_⟩
  · rw [hlines]
    simp
  · intro l hl
    rw [hlines] at hl
    simp only [List.mem_map, List.mem_range] at hl
    obtain ⟨y, _, rfl⟩ := hl
    refine ⟨(List.range img.width).map (fun x => f (img.pixel x y)), ?_, ?_, ?_, ?_⟩
    · simp
    · intro q hq
      simp only [List.mem_map] at hq
      obtain ⟨x, _, rfl⟩ := hq
      exact hf _
    · exact (joinMapL_map id (fun x => f (img.pixel x y)) (List.range img.width)).symm
    · rw [joinMapL_length_const _ _ 2, List.length_range]
      intro x _
      rcases hf (img.pixel x y) with hb | hb <;> rw [hb] <;> rfl
  · intro hmem
    unfold renderRows at hmem
    obtain ⟨y, _, hchar⟩ := joinMapL_mem _ _ _ hmem
    unfold renderRow at hchar
    rw [List.mem_append] at hchar
    rcases hchar with hc | hc
    · obtain ⟨x, _, hc2⟩ := joinMapL_mem _ _ _ hc
      rcases hf (img.pixel x y) with hb | hb <;> rw [hb] at hc2 <;>
        exact absurd hc2 (by decide)
    · exact absurd hc (by decide)

/-! ### The claims -/

/-- C3: for every pixel with alpha strictly below 128 the renderer emits
exactly two blank spaces, in all three modes, regardless of RGB. -/
theorem C3_transparent_pixel_blank (p : Rgba) (h : p.a < 128) :
    truecolorPixel p = [' ', ' '] ∧ monoPixel p = [' ', ' '] ∧
    invertPixel p = [' ', ' '] := by
  unfold truecolorPixel monoPixel invertPixel
  rw [if_pos h, if_pos h, if_pos h]
  exact ⟨rfl, rfl, rfl⟩

theorem C3_transparent_pixel_blank_witness :
    (Rgba.mk 200 10 30 127).a < 128 ∧
    (truecolorPixel ⟨200, 10, 30, 127⟩ = [' ', ' '] ∧
      monoPixel ⟨200, 10, 30, 127⟩ = [' ', ' '] ∧
      invertPixel ⟨200, 10, 30, 127⟩ = [' ', ' ']) :=
  ⟨by decide, C3_transparent_pixel_blank ⟨200, 10, 30, 127⟩ (by decide)⟩

/-- C4: for every opaque pixel (alpha ≥ 128) Monochrome and Invert use
the same luminance value and the same threshold 128, and choose opposite
glyph pairs: Monochrome blocks exactly when Invert blanks, and
conversely. -/
theorem C4_mono_invert_complement (p : Rgba) (h : 128 ≤ p.a) :
    monoPixel p = (if 128 < luminance p.r p.g p.b then blockPair else blankPair) ∧
    invertPixel p = (if 128 < luminance p.r p.g p.b then blankPair else blockPair) ∧
    (monoPixel p = blockPair ↔ invertPixel p = blankPair) ∧
    (monoPixel p = blankPair ↔ invertPixel p = blockPair) := by
  have h' : ¬ p.a < 128 := by omega
  unfold monoPixel invertPixel
  rw [if_neg h', if_neg h']
  by_cases hl : 128 < luminance p.r p.g p.b
  · simp only [if_pos hl]
    decide
  · simp only [if_neg hl]
    decide

theorem C4_mono_invert_complement_witness :
    128 ≤ (Rgba.mk 255 255 255 255).a ∧
    (monoPixel ⟨255, 255, 255, 255⟩
        = (if 128 < luminance 255 255 255 then blockPair else blankPair) ∧
      invertPixel ⟨255, 255, 255, 255⟩
        = (if 128 < luminance 255 255 255 then blankPair else blockPair) ∧
      (monoPixel ⟨255, 255, 255, 255⟩ = blockPair ↔
        invertPixel ⟨255, 255, 255, 255⟩ = blankPair) ∧
      (monoPixel ⟨255, 255, 255, 255⟩ = blankPair ↔
        invertPixel ⟨255, 255, 255, 255⟩ = blockPair)) :=
  ⟨by decide, C4_mono_invert_complement ⟨255, 255, 255, 255⟩ (by decide)⟩

/-- C10: for a `width × height` image, Monochrome and Invert output has
exactly `height` lines; every line is the concatenation of `width` glyph
pairs, each two blocks or two blanks, hence spans `2·width` character
cells; and the output contains no ANSI escape character. -/
theorem C10_mono_invert_shape (img : Image) :
    ((rustLines (convert_to_monochrome img)).length = img.height ∧
      (∀ l ∈ rustLines (convert_to_monochrome img), ∃ ps : List (List Char),
        ps.length = img.width ∧ (∀ q ∈ ps, q = blockPair ∨ q = blankPair) ∧
        l = joinMapL id ps ∧ l.length = 2 * img.width) ∧
      '\x1b' ∉ convert_to_monochrome img) ∧
    ((rustLines (convert_to_invert img)).length = img.height ∧
      (∀ l ∈ rustLines (convert_to_invert img), ∃ ps : List (List Char),
        ps.length = img.width ∧ (∀ q ∈ ps, q = blockPair ∨ q = blankPair) ∧
        l = joinMapL id ps ∧ l.length = 2 * img.width) ∧
      '\x1b' ∉ convert_to_invert img) :=
  ⟨renderRows_shape monoPixel img monoPixel_cases,
    renderRows_shape invertPixel img invertPixel_cases⟩

/-! ### The appending sink runs without failure -/

theorem foldlM_appendWriter {α : Type} (g : α → List Char) (l : List α)
    (s : List Char) :
    l.foldlM (fun st x => appendWriter st (g x)) s
      = Except.ok (s ++ joinMapL g l) := by
  induction l generalizing s with
  | nil =>
    simp only [joinMapL, List.append_nil, List.foldlM_nil]
    rfl
  | cons x xs ih =>
    rw [List.foldlM_cons]
    show (appendWriter s (g x)) >>= _ = _
    rw [show appendWriter s (g x) = Except.ok (s ++ g x) from rfl]
    rw [show (Except.ok (s ++ g x) >>= fun b =>
        List.foldlM (fun st x => appendWriter st (g x)) b xs)
      = List.foldlM (fun st x => appendWriter st (g x)) (s ++ g x) xs from rfl]
    rw [ih]
    simp [joinMapL]

theorem writeRows_appendWriter (f : Rgba → List Char) (img : Image)
    (s : List Char) :
    writeRows f img appendWriter s = Except.ok (s ++ renderRows f img) := by
  unfold writeRows
  rw [show (fun (st : List Char) y => do
        let st2 ← (List.range img.width).foldlM
          (fun st2 x => appendWriter st2 (f (img.pixel x y))) st
        appendWriter st2 ['\n'])
      = fun (st : List Char) y => appendWriter st (renderRow f img y) by
    funext st y
    rw [show ((List.range img.width).foldlM
          (fun st2 x => appendWriter st2 (f (img.pixel x y))) st >>=
            fun st2 => appendWriter st2 ['\n'])
        = ((List.range img.width).foldlM
          (fun st2 x => appendWriter st2 (f (img.pixel x y))) st >>=
            fun st2 => appendWriter st2 ['\n']) from rfl]
    rw [foldlM_appendWriter]
    show appendWriter _ _ = _
    unfold appendWriter renderRow
    rw [List.append_assoc]]
  exact foldlM_appendWriter (renderRow f img) (List.range img.height) s

theorem convert_w_appendWriter (img : Image) (mode : PixelMode)
    (s : List Char) :
    convert_image_to_text_w img mode appendWriter s
      = Except.ok (s ++ convert_image_to_text_rendered img mode) := by
  cases mode <;> exact writeRows_appendWriter _ img s

/-- C9: a decode failure makes `say_from_image` return the decoder's
message wrapped in a descriptive string, for every sink and state — in
particular before any byte reaches the sink and before the renderer runs
(an always-failing sink would otherwise produce its own error); and with
a sink that never fails, the call succeeds and appends exactly the
bubble, the connector and the rendered image, so the only failures the
components produce besides decode errors are sink write errors, which are
returned to the caller. -/
theorem C9_error_propagation (cw : Char → ℕ) (msg : List Char) (w : ℕ)
    (mode : PixelMode) (resizeF : Image → Image) (e : String) :
    (∀ (σ : Type) (wr : Writer σ) (s : σ),
      say_from_image_w cw (Except.error e) msg w mode resizeF wr s
        = Except.error ("无法加载图片: " ++ e)) ∧
    (∀ (img : Image) (s : List Char),
      say_from_image_w cw (Except.ok img) msg w mode resizeF appendWriter s
        = Except.ok (s ++ (sayBubble cw w msg ++ connector
            ++ convert_image_to_text_rendered (resizeF img) mode))) := by
  constructor
  · intro σ wr s
    rfl
  · intro img s
    show (appendWriter s (sayBubble cw w msg ++ connector) >>= fun s1 =>
      convert_image_to_text_w (resizeF img) mode appendWriter s1) = _
    rw [show appendWriter s (sayBubble cw w msg ++ connector)
        = Except.ok (s ++ (sayBubble cw w msg ++ connector)) from rfl]
    rw [show (Except.ok (s ++ (sayBubble cw w msg ++ connector)) >>= fun s1 =>
        convert_image_to_text_w (resizeF img) mode appendWriter s1)
      = convert_image_to_text_w (resizeF img) mode appendWriter
          (s ++ (sayBubble cw w msg ++ connector)) from rfl]
    rw [convert_w_appendWriter]
    simp

/-! ### Bubble structure -/

theorem bubbleBodyAux_chunks (cw : Char → ℕ) (aw count : ℕ) :
    ∀ (ls : List (List Char)) (i : ℕ),
      bubbleBodyAux cw aw count i ls
        = joinMapL (fun p => bodyChunk cw aw count p.1 p.2) (ls.enumFrom i) := by
  intro ls
  induction ls with
  | nil => intro i; rfl
  | cons l ls ih =>
    intro i
    simp only [bubbleBodyAux, List.enumFrom, joinMapL]
    rw [ih]

theorem longest_line_ge (cw : Char → ℕ) (lines : List (List Char)) :
    ∀ l ∈ lines, lineWidth cw l ≤ longest_line cw lines := by
  unfold longest_line
  induction lines with
  | nil => intro l hl; cases hl
  | cons x xs ih =>
    intro l hl
    simp only [List.map_cons, List.foldr_cons]
    rcases List.mem_cons.mp hl with rfl | hmem
    · exact le_max_left _ _
    · exact le_trans (ih l hmem) (le_max_right _ _)

theorem longest_line_mem (cw : Char → ℕ) (lines : List (List Char))
    (h : lines ≠ []) :
    ∃ l ∈ lines, lineWidth cw l = longest_line cw lines := by
  induction lines with
  | nil => exact absurd rfl h
  | cons x xs ih =>
    by_cases hxs : xs = []
    · subst hxs
      refine ⟨x, List.mem_cons_self x [], ?_⟩
      unfold longest_line
      simp
    · obtain ⟨l, hl, hweq⟩ := ih hxs
      unfold longest_line at hweq ⊢
      simp only [List.map_cons, List.foldr_cons]
      rcases le_total (lineWidth cw x) ((xs.map (lineWidth cw)).foldr max 0) with hc | hc
      · exact ⟨l, List.mem_cons_of_mem x hl, by rw [max_eq_right hc]; exact hweq⟩
      · exact ⟨x, List.mem_cons_self x xs, by rw [max_eq_left hc]⟩

/-- C1: the bubble body of `say_from_dynamic_image` (and `say`, which
duplicates the same loop) selects delimiters by position: with exactly
one wrapped line the chunk is `"< " … " >"`; with more lines, the first
chunk is `"/ " … " \"`, the last is `"\ " … " /"`, every interior one is
`"| " … " |"`, each around the blank-padded line; and the whole output
decomposes into top border, these chunks in order, bottom border,
connector and image text. -/
theorem C1_bubble_delimiters (cw : Char → ℕ) (msg imgText : List Char)
    (w : ℕ) (hw : 0 < w) :
    say_from_dynamic_image_out cw msg w imgText
      = topBorder (longest_line cw (sayLines cw w msg)) ++
        joinMapL (fun p => bodyChunk cw (longest_line cw (sayLines cw w msg))
          (sayLines cw w msg).length p.1 p.2) (sayLines cw w msg).enum ++
        bottomBorder (longest_line cw (sayLines cw w msg)) ++ ['\n'] ++
        connector ++ imgText ∧
    (∀ i, ∀ hi : i < (sayLines cw w msg).length,
      ((sayLines cw w msg).length = 1 →
        bodyChunk cw (longest_line cw (sayLines cw w msg))
            (sayLines cw w msg).length i ((sayLines cw w msg).get ⟨i, hi⟩)
          = ['<', ' '] ++ padTo cw (longest_line cw (sayLines cw w msg))
              ((sayLines cw w msg).get ⟨i, hi⟩) ++ [' ', '>', '\n']) ∧
      (1 < (sayLines cw w msg).length → i = 0 →
        bodyChunk cw (longest_line cw (sayLines cw w msg))
            (sayLines cw w msg).length i ((sayLines cw w msg).get ⟨i, hi⟩)
          = ['/', ' '] ++ padTo cw (longest_line cw (sayLines cw w msg))
              ((sayLines cw w msg).get ⟨i, hi⟩) ++ [' ', '\\', '\n']) ∧
      (1 < (sayLines cw w msg).length → i = (sayLines cw w msg).length - 1 →
        bodyChunk cw (longest_line cw (sayLines cw w msg))
            (sayLines cw w msg).length i ((sayLines cw w msg).get ⟨i, hi⟩)
          = ['\\', ' '] ++ padTo cw (longest_line cw (sayLines cw w msg))
              ((sayLines cw w msg).get ⟨i, hi⟩) ++ [' ', '/', '\n']) ∧
      (1 < (sayLines cw w msg).length → 0 < i →
          i < (sayLines cw w msg).length - 1 →
        bodyChunk cw (longest_line cw (sayLines cw w msg))
            (sayLines cw w msg).length i ((sayLines cw w msg).get ⟨i, hi⟩)
          = ['|', ' '] ++ padTo cw (longest_line cw (sayLines cw w msg))
              ((sayLines cw w msg).get ⟨i, hi⟩) ++ [' ', '|', '\n'])) := by
  constructor
  · unfold say_from_dynamic_image_out sayBubble bubbleBody
    rw [bubbleBodyAux_chunks]
    rfl
  · intro i hi
    refine ⟨?_, ?_, ?_, ?_⟩
    · intro h1
      unfold bodyChunk bodyPre bodySuf
      rw [if_pos h1, if_pos h1]
    · intro hgt h0
      have hne : (sayLines cw w msg).length ≠ 1 := by omega
      unfold bodyChunk bodyPre bodySuf
      rw [if_neg hne, if_pos h0, if_neg hne, if_pos h0]
    · intro hgt hlast
      have hne : (sayLines cw w msg).length ≠ 1 := by omega
      have hi0 : i ≠ 0 := by omega
      unfold bodyChunk bodyPre bodySuf
      rw [if_neg hne, if_neg hi0, if_pos hlast, if_neg hne, if_neg hi0,
        if_pos hlast]
    · intro hgt hi0 hilast
      have hne : (sayLines cw w msg).length ≠ 1 := by omega
      have hi0' : i ≠ 0 := by omega
      have hil : i ≠ (sayLines cw w msg).length - 1 := by omega
      unfold bodyChunk bodyPre bodySuf
      rw [if_neg hne, if_neg hi0', if_neg hil, if_neg hne, if_neg hi0',
        if_neg hil]

theorem C1_bubble_delimiters_witness :
    (0 : ℕ) < 10 ∧
    say_from_dynamic_image_out (fun _ => 1) ('h' :: ['i']) 10 []
      = topBorder (longest_line (fun _ => 1)
          (sayLines (fun _ => 1) 10 ('h' :: ['i']))) ++
        joinMapL (fun p => bodyChunk (fun _ => 1)
          (longest_line (fun _ => 1) (sayLines (fun _ => 1) 10 ('h' :: ['i'])))
          (sayLines (fun _ => 1) 10 ('h' :: ['i'])).length p.1 p.2)
          (sayLines (fun _ => 1) 10 ('h' :: ['i'])).enum ++
        bottomBorder (longest_line (fun _ => 1)
          (sayLines (fun _ => 1) 10 ('h' :: ['i']))) ++ ['\n'] ++
        connector ++ [] :=
  ⟨by decide,
    (C1_bubble_delimiters (fun _ => 1) ('h' :: ['i']) [] 10 (by decide)).1⟩

/-- C2: the emitted top border is one space, `actual_width + 2`
underscores and a newline; the bottom border is one space and
`actual_width + 2` dashes; the border proper has the same length
(`actual_width + 3`) in both; and `actual_width` is the maximum display
width over the wrapped lines, `0` when there are none. -/
theorem C2_borders (cw : Char → ℕ) (msg imgText : List Char) (w : ℕ)
    (hw : 0 < w) :
    say_from_dynamic_image_out cw msg w imgText
      = topBorder (longest_line cw (sayLines cw w msg)) ++
        bubbleBody cw (longest_line cw (sayLines cw w msg))
          (sayLines cw w msg).length (sayLines cw w msg) ++
        bottomBorder (longest_line cw (sayLines cw w msg)) ++ ['\n'] ++
        connector ++ imgText ∧
    topBorder (longest_line cw (sayLines cw w msg))
      = ' ' :: (List.replicate (longest_line cw (sayLines cw w msg) + 2) '_'
          ++ ['\n']) ∧
    bottomBorder (longest_line cw (sayLines cw w msg))
      = ' ' :: List.replicate (longest_line cw (sayLines cw w msg) + 2) '-' ∧
    (topBorder (longest_line cw (sayLines cw w msg))).length
      = longest_line cw (sayLines cw w msg) + 4 ∧
    (bottomBorder (longest_line cw (sayLines cw w msg))).length
      = longest_line cw (sayLines cw w msg) + 3 ∧
    (∀ l ∈ sayLines cw w msg,
      lineWidth cw l ≤ longest_line cw (sayLines cw w msg)) ∧
    (sayLines cw w msg = [] → longest_line cw (sayLines cw w msg) = 0) ∧
    (sayLines cw w msg ≠ [] → ∃ l ∈ sayLines cw w msg,
      lineWidth cw l = longest_line cw (sayLines cw w msg)) := by
  refine ⟨rfl, rfl, rfl, ?_, ?_, longest_line_ge cw _, ?_, longest_line_mem cw _⟩
  · unfold topBorder
    simp
  · unfold bottomBorder
    simp
  · intro h
    rw [h]
    rfl

theorem C2_borders_witness :
    (0 : ℕ) < 10 ∧
    (topBorder (longest_line (fun _ => 1)
        (sayLines (fun _ => 1) 10 ('h' :: ['i'])))).length
      = longest_line (fun _ => 1) (sayLines (fun _ => 1) 10 ('h' :: ['i'])) + 4 :=
  ⟨by decide,
    ((C2_borders (fun _ => 1) ('h' :: ['i']) [] 10 (by decide)).2.2.2).1⟩

/-! ### Whitespace normalization: runs -/

theorem merge_single (c : Char) :
    merge_white_spaces [c] = if mergeableWS c then [' '] else [c] := rfl

theorem merge_cons_cons (c d : Char) (rest : List Char) :
    merge_white_spaces (c :: d :: rest)
      = if mergeableWS c && mergeableWS d then merge_white_spaces (d :: rest)
        else (if mergeableWS c then ' ' else c) :: merge_white_spaces (d :: rest) := rfl

theorem splitRuns_cons_cons (c d : Char) (rest : List Char) :
    splitRuns (c :: d :: rest)
      = match splitRuns (d :: rest) with
        | [] => [[c]]
        | g :: gs =>
          if mergeableWS c == mergeableWS d then (c :: g) :: gs
          else [c] :: g :: gs := rfl

theorem splitRuns_cons_cons2 (c d : Char) (rest g : List Char)
    (gs : List (List Char)) (hsr : splitRuns (d :: rest) = g :: gs) :
    splitRuns (c :: d :: rest)
      = if mergeableWS c == mergeableWS d then (c :: g) :: gs
        else [c] :: g :: gs := by
  rw [splitRuns_cons_cons, hsr]

theorem splitRuns_ne_nil (l : List Char) (h : l ≠ []) : splitRuns l ≠ [] := by
  cases l with
  | nil => exact absurd rfl h
  | cons c cs =>
    cases cs with
    | nil => simp [splitRuns]
    | cons d rest =>
      rw [splitRuns_cons_cons]
      rcases hsr : splitRuns (d :: rest) with _ | ⟨g, gs⟩
      · simp
      · by_cases hcd : mergeableWS c == mergeableWS d <;> simp [hcd]

theorem splitRuns_cons_head (c : Char) (rest : List Char) :
    ∃ g gs, splitRuns (c :: rest) = g :: gs ∧ g.head? = some c := by
  cases rest with
  | nil => exact ⟨[c], [], rfl, rfl⟩
  | cons d rest2 =>
    rcases hsr : splitRuns (d :: rest2) with _ | ⟨g, gs⟩
    · exact absurd hsr (splitRuns_ne_nil _ (by simp))
    · rw [splitRuns_cons_cons2 c d rest2 g gs hsr]
      by_cases hcd : mergeableWS c == mergeableWS d
      · exact ⟨c :: g, gs, by rw [if_pos hcd], rfl⟩
      · exact ⟨[c], g :: gs, by rw [if_neg hcd], rfl⟩

theorem splitRuns_join (l : List Char) : joinMapL id (splitRuns l) = l := by
  induction l with
  | nil => rfl
  | cons c rest ih =>
    cases rest with
    | nil => rfl
    | cons d rest2 =>
      rcases hsr : splitRuns (d :: rest2) with _ | ⟨g, gs⟩
      · exact absurd hsr (splitRuns_ne_nil _ (by simp))
      · rw [splitRuns_cons_cons2 c d rest2 g gs hsr]
        rw [hsr] at ih
        by_cases hcd : mergeableWS c == mergeableWS d
        · rw [if_pos hcd]
          simp only [joinMapL, id] at ih ⊢
          rw [List.cons_append, ih]
        · rw [if_neg hcd]
          simp only [joinMapL, id] at ih ⊢
          rw [List.singleton_append, ih]

theorem splitRuns_homog (l : List Char) :
    ∀ g ∈ splitRuns l, g ≠ [] ∧
      ∀ c ∈ g, mergeableWS c = mergeableWS g.headI := by
  induction l with
  | nil => intro g hg; cases hg
  | cons c rest ih =>
    cases rest with
    | nil =>
      intro g hg
      rcases List.mem_singleton.mp hg with rfl
      exact ⟨by simp, by intro x hx; rcases List.mem_singleton.mp hx with rfl; rfl⟩
    | cons d rest2 =>
      intro g hg
      rcases hsr : splitRuns (d :: rest2) with _ | ⟨g0, gs⟩
      · exact absurd hsr (splitRuns_ne_nil _ (by simp))
      · rw [splitRuns_cons_cons2 c d rest2 g0 gs hsr] at hg
        obtain ⟨g1, gs1, hsr2, hh⟩ := splitRuns_cons_head d rest2
        rw [hsr] at hsr2
        have hh0 : g0.head? = some d := by
          injection hsr2 with h1 h2
          rw [h1]
          exact hh
        by_cases hcd : mergeableWS c == mergeableWS d
        · rw [if_pos hcd] at hg
          rcases List.mem_cons.mp hg with rfl | hmem
          · refine ⟨by simp, ?_⟩
            intro x hx
            have hg0 := ih g0 (hsr ▸ List.mem_cons_self g0 gs)
            have hd0 : g0.headI = d := by
              cases g0 with
              | nil => exact absurd rfl hg0.1
              | cons y ys => simp at hh0; simp [hh0]
            rcases List.mem_cons.mp hx with rfl | hx2
            · rfl
            · have := hg0.2 x hx2
              rw [hd0] at this
              rw [this]
              show mergeableWS d = mergeableWS c
              exact (beq_iff_eq.mp hcd).symm
          · exact ih g (hsr ▸ List.mem_cons_of_mem g0 hmem)
        · rw [if_neg hcd] at hg
          rcases List.mem_cons.mp hg with rfl | hmem
          · exact ⟨by simp, by intro x hx; rcases List.mem_singleton.mp hx with rfl; rfl⟩
          · exact ih g (hsr ▸ hmem)

theorem splitRuns_chain (l : List Char) :
    List.Chain' (fun g1 g2 => mergeableWS g1.headI ≠ mergeableWS g2.headI)
      (splitRuns l) := by
  induction l with
  | nil => exact List.chain'_nil
  | cons c rest ih =>
    cases rest with
    | nil => exact List.chain'_singleton _
    | cons d rest2 =>
      rcases hsr : splitRuns (d :: rest2) with _ | ⟨g0, gs⟩
      · exact absurd hsr (splitRuns_ne_nil _ (by simp))
      · rw [splitRuns_cons_cons2 c d rest2 g0 gs hsr]
        rw [hsr] at ih
        obtain ⟨g1, gs1, hsr2, hh⟩ := splitRuns_cons_head d rest2
        rw [hsr] at hsr2
        have hh0 : g0.head? = some d := by
          injection hsr2 with h1 h2
          rw [h1]
          exact hh
        have hd0 : g0.headI = d := by
          cases g0 with
          | nil => simp at hh0
          | cons y ys => simp at hh0; simp [hh0]
        by_cases hcd : mergeableWS c == mergeableWS d
        · rw [if_pos hcd]
          cases gs with
          | nil => exact List.chain'_singleton _
          | cons g2 gs2 =>
            rw [List.chain'_cons] at ih ⊢
            refine ⟨?_, ih.2⟩
            show mergeableWS c ≠ mergeableWS g2.headI
            rw [hd0] at ih
            rw [beq_iff_eq.mp hcd]
            exact ih.1
        · rw [if_neg hcd]
          rw [List.chain'_cons]
          refine ⟨?_, ih⟩
          show mergeableWS c ≠ mergeableWS g0.headI
          rw [hd0]
          exact fun heq => hcd (beq_iff_eq.mpr heq)

theorem any_of_homog (g : List Char) (hne : g ≠ [])
    (hh : ∀ c ∈ g, mergeableWS c = mergeableWS g.headI) :
    g.any mergeableWS = mergeableWS g.headI := by
  cases g with
  | nil => exact absurd rfl hne
  | cons x xs =>
    by_cases hx : mergeableWS x = true
    · simp [List.any_cons, hx]
    · have hx' : mergeableWS x = false := by simpa using hx
      have hall : ∀ c ∈ x :: xs, ¬(mergeableWS c = true) := by
        intro e he
        rw [hh e he]
        show ¬(mergeableWS (x :: xs).headI = true)
        simpa using hx
      have h1 : (x :: xs).any mergeableWS = false := by
        rw [List.any_eq_false]
        exact hall
      rw [h1, show (x :: xs).headI = x from rfl, hx']

theorem collapseRuns_cons (g : List Char) (gs : List (List Char)) :
    collapseRuns (g :: gs)
      = (if g.any mergeableWS then [' '] else g) ++ collapseRuns gs := rfl

theorem merge_eq_collapse (l : List Char) :
    merge_white_spaces l = collapseRuns (splitRuns l) := by
  induction l with
  | nil => rfl
  | cons c rest ih =>
    cases rest with
    | nil =>
      rw [merge_single]
      show _ = collapseRuns [[c]]
      rw [collapseRuns_cons]
      by_cases hc : mergeableWS c = true
      · rw [if_pos hc, if_pos (by simp [hc] : [c].any mergeableWS = true)]
        rfl
      · have hc' : mergeableWS c = false := by simpa using hc
        rw [if_neg hc, if_neg (by simp [hc'] : ¬([c].any mergeableWS = true))]
        rfl
    | cons d rest2 =>
      rcases hsr : splitRuns (d :: rest2) with _ | ⟨g0, gs⟩
      · exact absurd hsr (splitRuns_ne_nil _ (by simp))
      · rw [merge_cons_cons, splitRuns_cons_cons2 c d rest2 g0 gs hsr]
        rw [hsr] at ih
        obtain ⟨g1, gs1, hsr2, hh⟩ := splitRuns_cons_head d rest2
        rw [hsr] at hsr2
        have hh0 : g0.head? = some d := by
          injection hsr2 with h1 h2
          rw [h1]
          exact hh
        have hgprops := splitRuns_homog (d :: rest2) g0
          (hsr ▸ List.mem_cons_self g0 gs)
        have hd0 : g0.headI = d := by
          cases g0 with
          | nil => exact absurd rfl hgprops.1
          | cons y ys => simp at hh0; simp [hh0]
        have hany : g0.any mergeableWS = mergeableWS d := by
          rw [← hd0]
          exact any_of_homog g0 hgprops.1 hgprops.2
        by_cases hc : mergeableWS c = true <;> by_cases hd : mergeableWS d = true
        · rw [if_pos (by rw [hc, hd]; rfl : (mergeableWS c && mergeableWS d) = true)]
          rw [if_pos (by rw [hc, hd]; rfl : (mergeableWS c == mergeableWS d) = true)]
          rw [ih, collapseRuns_cons, collapseRuns_cons]
          rw [if_pos (by rw [hany, hd] : g0.any mergeableWS = true)]
          rw [if_pos (by simp [hc] : (c :: g0).any mergeableWS = true)]
        · have hd' : mergeableWS d = false := by simpa using hd
          rw [if_neg (by rw [hc, hd']; simp : ¬((mergeableWS c && mergeableWS d) = true))]
          rw [if_neg (by rw [hc, hd']; simp : ¬((mergeableWS c == mergeableWS d) = true))]
          rw [if_pos hc, ih, collapseRuns_cons [c] (g0 :: gs)]
          rw [if_pos (by simp [hc] : [c].any mergeableWS = true)]
          rfl
        · have hc' : mergeableWS c = false := by simpa using hc
          rw [if_neg (by rw [hc', hd]; simp : ¬((mergeableWS c && mergeableWS d) = true))]
          rw [if_neg (by rw [hc', hd]; simp : ¬((mergeableWS c == mergeableWS d) = true))]
          rw [if_neg hc, ih, collapseRuns_cons [c] (g0 :: gs)]
          rw [if_neg (by simp [hc'] : ¬([c].any mergeableWS = true))]
          rfl
        · have hc' : mergeableWS c = false := by simpa using hc
          have hd' : mergeableWS d = false := by simpa using hd
          rw [if_neg (by rw [hc', hd']; simp : ¬((mergeableWS c && mergeableWS d) = true))]
          rw [if_pos (by rw [hc', hd']; rfl : (mergeableWS c == mergeableWS d) = true)]
          rw [if_neg hc, ih, collapseRuns_cons, collapseRuns_cons]
          rw [if_neg (by rw [hany, hd']; simp : ¬(g0.any mergeableWS = true))]
          rw [if_neg (by simp [hc', hany, hd'] : ¬((c :: g0).any mergeableWS = true))]
          rfl

theorem merge_count (a : Char) (ha : mergeableWS a = false) (l : List Char) :
    (merge_white_spaces l).count a = l.count a := by
  have hsp : ¬(' ' = a) := fun he => by
    rw [← he] at ha
    simp [mergeableWS] at ha
  induction l with
  | nil => rfl
  | cons c rest ih =>
    cases rest with
    | nil =>
      rw [merge_single]
      by_cases hc : mergeableWS c = true
      · have h2 : ¬(c = a) := fun he => by
          rw [he] at hc
          rw [ha] at hc
          cases hc
        rw [if_pos hc]
        simp [List.count_cons, hsp, h2]
      · rw [if_neg hc]
    | cons d rest2 =>
      rw [merge_cons_cons]
      by_cases hcd : (mergeableWS c && mergeableWS d) = true
      · have hc : mergeableWS c = true := ((Bool.and_eq_true _ _).mp hcd).1
        have h2 : ¬(c = a) := fun he => by
          rw [he] at hc
          rw [ha] at hc
          cases hc
        rw [if_pos hcd, ih]
        simp [List.count_cons, h2]
      · rw [if_neg hcd]
        by_cases hc : mergeableWS c = true
        · have h2 : ¬(c = a) := fun he => by
            rw [he] at hc
            rw [ha] at hc
            cases hc
          rw [if_pos hc]
          simp [List.count_cons, hsp, h2, ih]
        · rw [if_neg hc]
          simp [List.count_cons, ih]

/-- C7: `merge_white_spaces` replaces every maximal run of non-newline
whitespace by a single space and leaves all other characters — newlines
in particular — unchanged: it equals the run-by-run collapse of the
maximal-run decomposition (`splitRuns`, whose properties 2-4 state that
it is exactly that decomposition), space and tab are in the collapsed
class while `'\n'` and `'\r'` are not, and newline/carriage-return
counts are preserved. -/
theorem C7_whitespace_normalization (msg : List Char) :
    merge_white_spaces msg = collapseRuns (splitRuns msg) ∧
    joinMapL id (splitRuns msg) = msg ∧
    (∀ g ∈ splitRuns msg, g ≠ [] ∧
      ∀ c ∈ g, mergeableWS c = mergeableWS g.headI) ∧
    List.Chain' (fun g1 g2 => mergeableWS g1.headI ≠ mergeableWS g2.headI)
      (splitRuns msg) ∧
    mergeableWS ' ' = true ∧ mergeableWS '\t' = true ∧
    mergeableWS '\n' = false ∧ mergeableWS '\x0d' = false ∧
    (merge_white_spaces msg).count '\n' = msg.count '\n' ∧
    (merge_white_spaces msg).count '\x0d' = msg.count '\x0d' :=
  ⟨merge_eq_collapse msg, splitRuns_join msg, splitRuns_homog msg,
    splitRuns_chain msg, by decide, by decide, by decide, by decide,
    merge_count '\n' (by decide) msg, merge_count '\x0d' (by decide) msg⟩

/-! ### Greedy wrap: width invariant -/

theorem wordsAux_no_space :
    ∀ (l cur : List Char), ' ' ∉ cur → ∀ word ∈ wordsAux cur l, ' ' ∉ word := by
  intro l
  induction l with
  | nil =>
    intro cur hcur word hword
    unfold wordsAux at hword
    by_cases hc : cur = []
    · rw [if_pos hc] at hword
      cases hword
    · rw [if_neg hc] at hword
      rcases List.mem_singleton.mp hword with rfl
      intro hs
      exact hcur (List.mem_reverse.mp hs)
  | cons c rest ih =>
    intro cur hcur word hword
    unfold wordsAux at hword
    by_cases hc : c = ' '
    · rw [if_pos hc] at hword
      by_cases hc2 : cur = []
      · rw [if_pos hc2] at hword
        exact ih [] (by simp) word hword
      · rw [if_neg hc2] at hword
        rcases List.mem_cons.mp hword with rfl | hmem
        · intro hs
          exact hcur (List.mem_reverse.mp hs)
        · exact ih [] (by simp) word hmem
    · rw [if_neg hc] at hword
      refine ih (c :: cur) ?_ word hword
      intro hs
      rcases List.mem_cons.mp hs with he | hmem
      · exact hc he.symm
      · exact hcur hmem

theorem words_no_space (l : List Char) : ∀ word ∈ words l, ' ' ∉ word :=
  wordsAux_no_space l [] (by simp)

theorem greedyAux_cons (cw : Char → ℕ) (w : ℕ) (cur : List Char) (curW : ℕ)
    (word : List Char) (rest : List (List Char)) :
    greedyAux cw w cur curW (word :: rest)
      = if curW + 1 + lineWidth cw word ≤ w then
          greedyAux cw w (cur ++ ' ' :: word) (curW + 1 + lineWidth cw word) rest
        else cur :: greedyAux cw w word (lineWidth cw word) rest := rfl

theorem lineWidth_append (cw : Char → ℕ) (l1 l2 : List Char) :
    lineWidth cw (l1 ++ l2) = lineWidth cw l1 + lineWidth cw l2 := by
  unfold lineWidth
  rw [List.map_append, List.sum_append]

theorem greedyAux_inv (cw : Char → ℕ) (w : ℕ) (hsp : cw ' ' = 1) :
    ∀ (ws : List (List Char)) (cur : List Char) (curW : ℕ),
      curW = lineWidth cw cur →
      (lineWidth cw cur ≤ w ∨ ' ' ∉ cur) →
      (∀ word ∈ ws, ' ' ∉ word) →
      ∀ l ∈ greedyAux cw w cur curW ws, lineWidth cw l ≤ w ∨ ' ' ∉ l := by
  intro ws
  induction ws with
  | nil =>
    intro cur curW _ hinv _ l hl
    rcases List.mem_singleton.mp hl with rfl
    exact hinv
  | cons word rest ih =>
    intro cur curW hW hinv hws l hl
    rw [greedyAux_cons] at hl
    by_cases hfit : curW + 1 + lineWidth cw word ≤ w
    · rw [if_pos hfit] at hl
      have hWnew : curW + 1 + lineWidth cw word
          = lineWidth cw (cur ++ ' ' :: word) := by
        rw [lineWidth_append]
        rw [show lineWidth cw (' ' :: word) = cw ' ' + lineWidth cw word from rfl]
        rw [hsp, hW]
        ring
      refine ih (cur ++ ' ' :: word) (curW + 1 + lineWidth cw word) hWnew
        (Or.inl ?_) (fun w2 hw2 => hws w2 (List.mem_cons_of_mem word hw2)) l hl
      rw [← hWnew]
      exact hfit
    · rw [if_neg hfit] at hl
      rcases List.mem_cons.mp hl with rfl | hl2
      · exact hinv
      · exact ih word (lineWidth cw word) rfl
          (Or.inr (hws word (List.mem_cons_self word rest)))
          (fun w2 hw2 => hws w2 (List.mem_cons_of_mem word hw2)) l hl2

theorem greedyWrap_inv (cw : Char → ℕ) (w : ℕ) (hsp : cw ' ' = 1)
    (ws : List (List Char)) (hws : ∀ word ∈ ws, ' ' ∉ word) :
    ∀ l ∈ greedyWrap cw w ws, lineWidth cw l ≤ w ∨ ' ' ∉ l := by
  cases ws with
  | nil =>
    intro l hl
    rcases List.mem_singleton.mp hl with rfl
    right
    simp
  | cons word rest =>
    exact greedyAux_inv cw w hsp rest word (lineWidth cw word) rfl
      (Or.inr (hws word (List.mem_cons_self word rest)))
      (fun w2 hw2 => hws w2 (List.mem_cons_of_mem word hw2))

theorem fillLines_inv (cw : Char → ℕ) (w : ℕ) (hsp : cw ' ' = 1)
    (text : List Char) :
    ∀ l ∈ fillLines cw w text, lineWidth cw l ≤ w ∨ ' ' ∉ l := by
  intro l hl
  obtain ⟨seg, _, hlseg⟩ := joinMapL_mem _ _ _ hl
  exact greedyWrap_inv cw w hsp (words seg) (words_no_space seg) l hlseg

/-! ### Characters of wrapped lines -/

theorem wordsAux_chars :
    ∀ (l cur : List Char) (c : Char),
      (∀ word ∈ wordsAux cur l, c ∈ word → c ∈ cur ∨ c ∈ l) := by
  intro l
  induction l with
  | nil =>
    intro cur c word hword hc
    unfold wordsAux at hword
    by_cases h0 : cur = []
    · rw [if_pos h0] at hword
      cases hword
    · rw [if_neg h0] at hword
      rcases List.mem_singleton.mp hword with rfl
      exact Or.inl (List.mem_reverse.mp hc)
  | cons d rest ih =>
    intro cur c word hword hc
    unfold wordsAux at hword
    by_cases hd : d = ' '
    · rw [if_pos hd] at hword
      by_cases h0 : cur = []
      · rw [if_pos h0] at hword
        rcases ih [] c word hword hc with h | h
        · cases h
        · exact Or.inr (List.mem_cons_of_mem d h)
      · rw [if_neg h0] at hword
        rcases List.mem_cons.mp hword with rfl | hmem
        · exact Or.inl (List.mem_reverse.mp hc)
        · rcases ih [] c word hmem hc with h | h
          · cases h
          · exact Or.inr (List.mem_cons_of_mem d h)
    · rw [if_neg hd] at hword
      rcases ih (d :: cur) c word hword hc with h | h
      · rcases List.mem_cons.mp h with rfl | h2
        · exact Or.inr (List.mem_cons_self c rest)
        · exact Or.inl h2
      · exact Or.inr (List.mem_cons_of_mem d h)

theorem greedyAux_chars (cw : Char → ℕ) (w : ℕ) :
    ∀ (ws : List (List Char)) (cur : List Char) (curW : ℕ) (c : Char),
      ∀ l ∈ greedyAux cw w cur curW ws, c ∈ l →
        c ∈ cur ∨ c = ' ' ∨ ∃ word ∈ ws, c ∈ word := by
  intro ws
  induction ws with
  | nil =>
    intro cur curW c l hl hc
    rcases List.mem_singleton.mp hl with rfl
    exact Or.inl hc
  | cons word rest ih =>
    intro cur curW c l hl hc
    rw [greedyAux_cons] at hl
    by_cases hfit : curW + 1 + lineWidth cw word ≤ w
    · rw [if_pos hfit] at hl
      rcases ih (cur ++ ' ' :: word) _ c l hl hc with h | h | ⟨w2, hw2, hcw2⟩
      · rcases List.mem_append.mp h with h2 | h2
        · exact Or.inl h2
        · rcases List.mem_cons.mp h2 with rfl | h3
          · exact Or.inr (Or.inl rfl)
          · exact Or.inr (Or.inr ⟨word, List.mem_cons_self word rest, h3⟩)
      · exact Or.inr (Or.inl h)
      · exact Or.inr (Or.inr ⟨w2, List.mem_cons_of_mem word hw2, hcw2⟩)
    · rw [if_neg hfit] at hl
      rcases List.mem_cons.mp hl with rfl | hl2
      · exact Or.inl hc
      · rcases ih word _ c l hl2 hc with h | h | ⟨w2, hw2, hcw2⟩
        · exact Or.inr (Or.inr ⟨word, List.mem_cons_self word rest, h⟩)
        · exact Or.inr (Or.inl h)
        · exact Or.inr (Or.inr ⟨w2, List.mem_cons_of_mem word hw2, hcw2⟩)

theorem splitNl_no_nl (l : List Char) : ∀ seg ∈ splitNl l, '\n' ∉ seg := by
  induction l with
  | nil =>
    intro seg hseg
    rcases List.mem_singleton.mp hseg with rfl
    simp
  | cons c cs ih =>
    intro seg hseg
    rw [splitNl_cons] at hseg
    by_cases hc : c = '\n'
    · rw [if_pos hc] at hseg
      rcases List.mem_cons.mp hseg with rfl | hmem
      · simp
      · exact ih seg hmem
    · rw [if_neg hc] at hseg
      rcases hs : splitNl cs with _ | ⟨s, ss⟩
      · exact absurd hs (splitNl_ne_nil cs)
      · rw [hs] at hseg
        rcases List.mem_cons.mp hseg with rfl | hmem
        · intro hin
          rcases List.mem_cons.mp hin with he | hmem2
          · exact hc he.symm
          · exact ih s (hs ▸ List.mem_cons_self s ss) hmem2
        · exact ih seg (hs ▸ List.mem_cons_of_mem s hmem)

theorem fillLines_no_nl (cw : Char → ℕ) (w : ℕ) (text : List Char) :
    ∀ l ∈ fillLines cw w text, '\n' ∉ l := by
  intro l hl hnl
  obtain ⟨seg, hseg, hlseg⟩ := joinMapL_mem _ _ _ hl
  have hsegnl := splitNl_no_nl text seg hseg
  cases hws : words seg with
  | nil =>
    rw [show greedyWrap cw w (words seg) = greedyWrap cw w [] by rw [hws]] at hlseg
    rcases List.mem_singleton.mp hlseg with rfl
    cases hnl
  | cons word rest =>
    rw [hws] at hlseg
    have hwmem : word ∈ wordsAux [] seg := by
      show word ∈ words seg
      rw [hws]
      exact List.mem_cons_self word rest
    rcases greedyAux_chars cw w rest word (lineWidth cw word) '\n' l hlseg hnl
      with h | h | ⟨w2, hw2, hcw2⟩
    · rcases wordsAux_chars seg [] '\n' word hwmem h with h2 | h2
      · cases h2
      · exact hsegnl h2
    · cases h
    · have hw2mem : w2 ∈ wordsAux [] seg := by
        show w2 ∈ words seg
        rw [hws]
        exact List.mem_cons_of_mem word hw2
      rcases wordsAux_chars seg [] '\n' w2 hw2mem hcw2 with h2 | h2
      · cases h2
      · exact hsegnl h2

/-! ### Relating `rustLines ∘ joinLines` to the wrapped lines -/

theorem splitNl_single (l : List Char) (h : '\n' ∉ l) : splitNl l = [l] := by
  induction l with
  | nil => rfl
  | cons c cs ih =>
    have hc : c ≠ '\n' := fun he => h (he ▸ List.mem_cons_self c cs)
    rw [splitNl_cons, if_neg hc, ih (fun hm => h (List.mem_cons_of_mem c hm))]

theorem splitNl_joinLines (ls : List (List Char)) (hne : ls ≠ [])
    (hnl : ∀ l ∈ ls, '\n' ∉ l) :
    splitNl (joinLines ls) = ls := by
  induction ls with
  | nil => exact absurd rfl hne
  | cons l rest ih =>
    cases rest with
    | nil => exact splitNl_single l (hnl l (List.mem_cons_self l []))
    | cons l2 rest2 =>
      show splitNl (l ++ '\n' :: joinLines (l2 :: rest2)) = _
      rw [splitNl_append_row l _ (hnl l (List.mem_cons_self l _))]
      rw [ih (by simp) (fun y hy => hnl y (List.mem_cons_of_mem l hy))]

theorem rustLines_joinLines_mem (ls : List (List Char))
    (hnl : ∀ l ∈ ls, '\n' ∉ l) :
    ∀ l ∈ rustLines (joinLines ls), ∃ l0 ∈ ls, l = l0 ∨ l = stripCR l0 := by
  cases hne : ls with
  | nil =>
    intro l hl
    rw [show rustLines (joinLines []) = [] from rfl] at hl
    cases hl
  | cons x xs =>
    intro l hl
    unfold rustLines at hl
    rw [splitNl_joinLines (x :: xs) (by simp) (hne ▸ hnl)] at hl
    rcases List.mem_append.mp hl with hmem | hmem
    · obtain ⟨l0, hl0, rfl⟩ := List.mem_map.mp hmem
      exact ⟨l0, List.dropLast_sublist (x :: xs) |>.subset hl0, Or.inr rfl⟩
    · rcases hg : (x :: xs).getLast? with _ | l0
      · rw [hg] at hmem
        cases hmem
      · rw [hg] at hmem
        have hmem2 : l ∈ (if l0 = [] then ([] : List (List Char)) else [l0]) := hmem
        by_cases h0 : l0 = []
        · rw [if_pos h0] at hmem2
          cases hmem2
        · rw [if_neg h0] at hmem2
          rcases List.mem_singleton.mp hmem2 with rfl
          exact ⟨l, getLast?_mem _ _ hg, Or.inl rfl⟩

theorem stripCR_subset (l : List Char) : ∀ c ∈ stripCR l, c ∈ l := by
  intro c hc
  unfold stripCR at hc
  by_cases hg : l.getLast? = some '\x0d'
  · rw [if_pos hg] at hc
    exact (List.dropLast_sublist l).subset hc
  · rw [if_neg hg] at hc
    exact hc

theorem stripCR_width_le (cw : Char → ℕ) (l : List Char) :
    lineWidth cw (stripCR l) ≤ lineWidth cw l := by
  unfold stripCR
  by_cases hg : l.getLast? = some '\x0d'
  · rw [if_pos hg]
    have hsplit : l.dropLast ++ ['\x0d'] = l :=
      List.dropLast_append_getLast? _ (Option.mem_def.mpr hg)
    conv_rhs => rw [← hsplit]
    rw [lineWidth_append]
    omega
  · rw [if_neg hg]

/-- C8: every wrapped line placed inside the bubble has display width at
most `max_width`, or is a single token (it contains no space), which is
the one case the wrap policy lets overflow on a line of its own. -/
theorem C8_wrap_width (cw : Char → ℕ) (msg : List Char) (w : ℕ)
    (hw : 0 < w) (hsp : cw ' ' = 1) :
    ∀ l ∈ sayLines cw w msg, lineWidth cw l ≤ w ∨ ' ' ∉ l := by
  intro l hl
  unfold sayLines fill at hl
  obtain ⟨l0, hl0, hcase⟩ := rustLines_joinLines_mem _
    (fillLines_no_nl cw w (merge_white_spaces msg)) l hl
  have hinv := fillLines_inv cw w hsp (merge_white_spaces msg) l0 hl0
  rcases hcase with rfl | rfl
  · exact hinv
  · rcases hinv with hle | hns
    · exact Or.inl (le_trans (stripCR_width_le cw l0) hle)
    · exact Or.inr (fun hc => hns (stripCR_subset l0 ' ' hc))

theorem C8_wrap_width_witness :
    (0 : ℕ) < 5 ∧ (fun _ : Char => 1) ' ' = 1 ∧
    ∀ l ∈ sayLines (fun _ => 1) 5
        ('h' :: 'e' :: 'l' :: 'l' :: 'o' :: ' ' ::
          'w' :: 'o' :: 'r' :: 'l' :: 'd' :: 's' :: []),
      lineWidth (fun _ => 1) l ≤ 5 ∨ ' ' ∉ l :=
  ⟨by decide, rfl,
    C8_wrap_width (fun _ => 1)
      ('h' :: 'e' :: 'l' :: 'l' :: 'o' :: ' ' ::
        'w' :: 'o' :: 'r' :: 'l' :: 'd' :: 's' :: []) 5 (by decide) rfl⟩

/-! ### Luminance: the `f32` value against the exact weighted sum -/

theorem toQ_nat (n : ℕ) : toQ ⟨n, 1⟩ = (n : ℚ) := by
  unfold toQ
  simp

theorem toQ_nonneg (p : PQ) : 0 ≤ toQ p := by
  unfold toQ
  positivity

/-- The `f32` luminance is within `1/10000` of the exact weighted sum. -/
theorem lumF32_close (r g b : ℕ) (hr : r ≤ 255) (hg : g ≤ 255) (hb : b ≤ 255) :
    ((2126 * r + 7152 * g + 722 * b : ℕ) : ℚ) / 10000 - 1 / 10000
        < toQ (lumF32 r g b) ∧
    toQ (lumF32 r g b)
        < ((2126 * r + 7152 * g + 722 * b : ℕ) : ℚ) / 10000 + 1 / 10000 := by
  have hrq : (r : ℚ) ≤ 255 := by exact_mod_cast hr
  have hgq : (g : ℚ) ≤ 255 := by exact_mod_cast hg
  have hbq2 : (b : ℚ) ≤ 255 := by exact_mod_cast hb
  have hr0 : (0 : ℚ) ≤ (r : ℚ) := Nat.cast_nonneg r
  have hg0 : (0 : ℚ) ≤ (g : ℚ) := Nat.cast_nonneg g
  have hb0 : (0 : ℚ) ≤ (b : ℚ) := Nat.cast_nonneg b
  have hlw1 : lw1 = ⟨14267344, 67108864⟩ := by decide
  have hlw2 : lw2 = ⟨11999065, 16777216⟩ := by decide
  have hlw3 : lw3 = ⟨9690520, 134217728⟩ := by decide
  have hc1 : toQ lw1 = 14267344 / 67108864 := by
    rw [hlw1]; unfold toQ; norm_num
  have hc2 : toQ lw2 = 11999065 / 16777216 := by
    rw [hlw2]; unfold toQ; norm_num
  have hc3 : toQ lw3 = 9690520 / 134217728 := by
    rw [hlw3]; unfold toQ; norm_num
  have hd1 : 0 < (pqMul lw1 ⟨r, 1⟩).den := by
    rw [hlw1]; exact Nat.mul_pos (by norm_num) Nat.one_pos
  have hd2 : 0 < (pqMul lw2 ⟨g, 1⟩).den := by
    rw [hlw2]; exact Nat.mul_pos (by norm_num) Nat.one_pos
  have hd3 : 0 < (pqMul lw3 ⟨b, 1⟩).den := by
    rw [hlw3]; exact Nat.mul_pos (by norm_num) Nat.one_pos
  have ha1 : toQ (pqMul lw1 ⟨r, 1⟩) = (14267344 / 67108864 : ℚ) * r := by
    rw [toQ_mul, toQ_nat, hc1]
  have ha2 : toQ (pqMul lw2 ⟨g, 1⟩) = (11999065 / 16777216 : ℚ) * g := by
    rw [toQ_mul, toQ_nat, hc2]
  have ha3 : toQ (pqMul lw3 ⟨b, 1⟩) = (9690520 / 134217728 : ℚ) * b := by
    rw [toQ_mul, toQ_nat, hc3]
  obtain ⟨hb1l, hb1u⟩ := roundF32_bounds (pqMul lw1 ⟨r, 1⟩) hd1
  obtain ⟨hb2l, hb2u⟩ := roundF32_bounds (pqMul lw2 ⟨g, 1⟩) hd2
  obtain ⟨hb3l, hb3u⟩ := roundF32_bounds (pqMul lw3 ⟨b, 1⟩) hd3
  rw [ha1] at hb1l hb1u
  rw [ha2] at hb2l hb2u
  rw [ha3] at hb3l hb3u
  set b1 : ℚ := toQ (roundF32 (pqMul lw1 ⟨r, 1⟩)) with hb1def
  set b2 : ℚ := toQ (roundF32 (pqMul lw2 ⟨g, 1⟩)) with hb2def
  set b3 : ℚ := toQ (roundF32 (pqMul lw3 ⟨b, 1⟩)) with hb3def
  have hnb1 : 2126 / 10000 * (r : ℚ) - 6 / 1000000 ≤ b1 ∧
      b1 ≤ 2126 / 10000 * (r : ℚ) + 6 / 1000000 :=
    ⟨by linarith, by linarith⟩
  have hnb2 : 7152 / 10000 * (g : ℚ) - 13 / 1000000 ≤ b2 ∧
      b2 ≤ 7152 / 10000 * (g : ℚ) + 13 / 1000000 :=
    ⟨by linarith, by linarith⟩
  have hnb3 : 722 / 10000 * (b : ℚ) - 2 / 1000000 ≤ b3 ∧
      b3 ≤ 722 / 10000 * (b : ℚ) + 2 / 1000000 :=
    ⟨by linarith, by linarith⟩
  have hdp1 : 0 < (roundF32 (pqMul lw1 ⟨r, 1⟩)).den := roundF32_den_pos _
  have hdp2 : 0 < (roundF32 (pqMul lw2 ⟨g, 1⟩)).den := roundF32_den_pos _
  have hdp3 : 0 < (roundF32 (pqMul lw3 ⟨b, 1⟩)).den := roundF32_den_pos _
  have hds1 : 0 < (pqAdd (roundF32 (pqMul lw1 ⟨r, 1⟩))
      (roundF32 (pqMul lw2 ⟨g, 1⟩))).den := Nat.mul_pos hdp1 hdp2
  have hadd1 : toQ (pqAdd (roundF32 (pqMul lw1 ⟨r, 1⟩))
      (roundF32 (pqMul lw2 ⟨g, 1⟩))) = b1 + b2 := toQ_add _ _ hdp1 hdp2
  obtain ⟨hs1l, hs1u⟩ := roundF32_bounds (pqAdd (roundF32 (pqMul lw1 ⟨r, 1⟩))
      (roundF32 (pqMul lw2 ⟨g, 1⟩))) hds1
  rw [hadd1] at hs1l hs1u
  set s1 : ℚ := toQ (roundF32 (pqAdd (roundF32 (pqMul lw1 ⟨r, 1⟩))
      (roundF32 (pqMul lw2 ⟨g, 1⟩)))) with hs1def
  have hns1 : b1 + b2 - 15 / 1000000 ≤ s1 ∧ s1 ≤ b1 + b2 + 15 / 1000000 := by
    have hsum : b1 + b2 ≤ 237 := by linarith [hnb1.2, hnb2.2]
    have hsum0 : 0 ≤ b1 + b2 := by
      have := toQ_nonneg (roundF32 (pqMul lw1 ⟨r, 1⟩))
      have := toQ_nonneg (roundF32 (pqMul lw2 ⟨g, 1⟩))
      rw [← hb1def, ← hb2def] at *
      linarith
    exact ⟨by linarith, by linarith⟩
  have hdps1 : 0 < (roundF32 (pqAdd (roundF32 (pqMul lw1 ⟨r, 1⟩))
      (roundF32 (pqMul lw2 ⟨g, 1⟩)))).den := roundF32_den_pos _
  have hds2 : 0 < (pqAdd (roundF32 (pqAdd (roundF32 (pqMul lw1 ⟨r, 1⟩))
      (roundF32 (pqMul lw2 ⟨g, 1⟩)))) (roundF32 (pqMul lw3 ⟨b, 1⟩))).den :=
    Nat.mul_pos hdps1 hdp3
  have hadd2 : toQ (pqAdd (roundF32 (pqAdd (roundF32 (pqMul lw1 ⟨r, 1⟩))
      (roundF32 (pqMul lw2 ⟨g, 1⟩)))) (roundF32 (pqMul lw3 ⟨b, 1⟩)))
      = s1 + b3 := toQ_add _ _ hdps1 hdp3
  obtain ⟨hs2l, hs2u⟩ := roundF32_bounds (pqAdd (roundF32 (pqAdd
      (roundF32 (pqMul lw1 ⟨r, 1⟩)) (roundF32 (pqMul lw2 ⟨g, 1⟩))))
      (roundF32 (pqMul lw3 ⟨b, 1⟩))) hds2
  rw [hadd2] at hs2l hs2u
  have hlum : toQ (lumF32 r g b) = toQ (roundF32 (pqAdd (roundF32 (pqAdd
      (roundF32 (pqMul lw1 ⟨r, 1⟩)) (roundF32 (pqMul lw2 ⟨g, 1⟩))))
      (roundF32 (pqMul lw3 ⟨b, 1⟩)))) := rfl
  have hns2 : s1 + b3 - 16 / 1000000 ≤ toQ (lumF32 r g b) ∧
      toQ (lumF32 r g b) ≤ s1 + b3 + 16 / 1000000 := by
    rw [hlum]
    have hsum : s1 + b3 ≤ 256 := by linarith [hns1.2, hnb1.2, hnb2.2, hnb3.2]
    have hsum0 : 0 ≤ s1 + b3 := by
      have h1 := toQ_nonneg (roundF32 (pqAdd (roundF32 (pqMul lw1 ⟨r, 1⟩))
        (roundF32 (pqMul lw2 ⟨g, 1⟩))))
      have h2 := toQ_nonneg (roundF32 (pqMul lw3 ⟨b, 1⟩))
      rw [← hs1def] at h1
      rw [← hb3def] at h2
      linarith
    exact ⟨by linarith, by linarith⟩
  have hEcast : ((2126 * r + 7152 * g + 722 * b : ℕ) : ℚ)
      = 2126 * (r : ℚ) + 7152 * (g : ℚ) + 722 * (b : ℚ) := by push_cast; ring
  rw [hEcast]
  constructor
  · linarith [hns2.1, hns1.1, hnb1.1, hnb2.1, hnb3.1]
  · linarith [hns2.2, hns1.2, hnb1.2, hnb2.2, hnb3.2]

/-- The `u8` luminance equals the exact truncated weighted sum or falls
one short of it. -/
theorem luminance_close (r g b : ℕ) (hr : r ≤ 255) (hg : g ≤ 255)
    (hb : b ≤ 255) :
    luminance r g b = (2126 * r + 7152 * g + 722 * b) / 10000 ∨
    luminance r g b + 1 = (2126 * r + 7152 * g + 722 * b) / 10000 := by
  obtain ⟨hlo, hhi⟩ := lumF32_close r g b hr hg hb
  set N : ℕ := 2126 * r + 7152 * g + 722 * b with hN
  have hNle : N ≤ 2550000 := by omega
  have hEle : N / 10000 ≤ 255 := by omega
  have hq0 : (0 : ℚ) ≤ toQ (lumF32 r g b) := toQ_nonneg _
  have hdiv1 : ((N / 10000) * 10000 : ℕ) ≤ N := Nat.div_mul_le_self N 10000
  have hdiv2 : N < (N / 10000 + 1) * 10000 := by omega
  have hup : toQ (lumF32 r g b) < ((N / 10000 : ℕ) : ℚ) + 1 := by
    have h1 : (N : ℚ) ≤ ((N / 10000 : ℕ) : ℚ) * 10000 + 9999 := by
      exact_mod_cast (by omega : N ≤ (N / 10000) * 10000 + 9999)
    have h2 : (N : ℚ) / 10000 ≤ ((N / 10000 : ℕ) : ℚ) + 9999 / 10000 := by
      linarith
    linarith
  have hdown : ((N / 10000 : ℕ) : ℚ) - 1 < toQ (lumF32 r g b) := by
    have h1 : ((N / 10000 : ℕ) : ℚ) * 10000 ≤ (N : ℚ) := by exact_mod_cast hdiv1
    have h2 : ((N / 10000 : ℕ) : ℚ) ≤ (N : ℚ) / 10000 := by linarith
    linarith
  have hfl : ⌊toQ (lumF32 r g b)⌋₊ ≤ N / 10000 := by
    have := (Nat.floor_lt hq0).mpr (by exact_mod_cast hup)
    omega
  have hfg : N / 10000 ≤ ⌊toQ (lumF32 r g b)⌋₊ + 1 := by
    by_cases h0 : N / 10000 = 0
    · omega
    · have h1 : ((N / 10000 - 1 : ℕ) : ℚ) ≤ toQ (lumF32 r g b) := by
        have : ((N / 10000 - 1 : ℕ) : ℚ) = ((N / 10000 : ℕ) : ℚ) - 1 := by
          have : 1 ≤ N / 10000 := by omega
          push_cast [this]
          ring
        rw [this]
        linarith
      have := Nat.le_floor h1
      omega
  have hlum : luminance r g b = ⌊toQ (lumF32 r g b)⌋₊ := by
    unfold luminance
    rw [pqFloor_eq]
    omega
  omega

/-- C5 counterexample: at opaque RGB (13, 176, 5) the exact truncated
luminance is `129 > 128`, so the claim requires two solid blocks, but
the `f32` computation truncates to 128 and the code emits two blanks. -/
theorem C5_counterexample :
    (2126 * 13 + 7152 * 176 + 722 * 5) / 10000 = 129 ∧
    128 < 129 ∧
    luminance 13 176 5 = 128 ∧
    monoPixel ⟨13, 176, 5, 255⟩ = blankPair ∧
    monoPixel ⟨13, 176, 5, 255⟩ ≠ blockPair := by decide

/-- C5 (amended): for every opaque pixel, Monochrome computes the
luminance by evaluating `0.2126·R + 0.7152·G + 0.0722·B` in `f32`
(rounding once per operation) and truncating; that value equals the
exactly-truncated weighted sum or falls one short of it; two solid
blocks are emitted exactly when the computed luminance exceeds 128,
otherwise two blanks. -/
theorem C5_monochrome_luminance (p : Rgba) (hr : p.r ≤ 255)
    (hg : p.g ≤ 255) (hb : p.b ≤ 255) (ha : 128 ≤ p.a) :
    (luminance p.r p.g p.b = (2126 * p.r + 7152 * p.g + 722 * p.b) / 10000 ∨
      luminance p.r p.g p.b + 1 = (2126 * p.r + 7152 * p.g + 722 * p.b) / 10000) ∧
    luminance p.r p.g p.b = min (pqFloor (lumF32 p.r p.g p.b)) 255 ∧
    monoPixel p
      = (if 128 < luminance p.r p.g p.b then blockPair else blankPair) := by
  refine ⟨luminance_close p.r p.g p.b hr hg hb, rfl, ?_⟩
  unfold monoPixel
  rw [if_neg (by omega : ¬ p.a < 128)]

theorem C5_monochrome_luminance_witness :
    (Rgba.mk 13 176 5 255).r ≤ 255 ∧ (Rgba.mk 13 176 5 255).g ≤ 255 ∧
    (Rgba.mk 13 176 5 255).b ≤ 255 ∧ 128 ≤ (Rgba.mk 13 176 5 255).a ∧
    ((luminance 13 176 5 = (2126 * 13 + 7152 * 176 + 722 * 5) / 10000 ∨
        luminance 13 176 5 + 1 = (2126 * 13 + 7152 * 176 + 722 * 5) / 10000) ∧
      luminance 13 176 5 = min (pqFloor (lumF32 13 176 5)) 255 ∧
      monoPixel ⟨13, 176, 5, 255⟩
        = (if 128 < luminance 13 176 5 then blockPair else blankPair)) :=
  ⟨by decide, by decide, by decide, by decide,
    C5_monochrome_luminance ⟨13, 176, 5, 255⟩
      (by decide) (by decide) (by decide) (by decide)⟩

/-! ### Downscaling dimensions -/

theorem rndHalfUp_mul (w t : ℕ) (hw : 0 < w) : rndHalfUp (w * t) w = t := by
  unfold rndHalfUp
  rw [show 2 * (w * t) + w = 2 * w * t + w by ring]
  rw [Nat.mul_add_div (by omega)]
  rw [Nat.div_eq_of_lt (by omega)]
  omega

theorem rndHalfUp_le (x w t : ℕ) (hw : 0 < w) (hx : x ≤ w * t) :
    rndHalfUp x w ≤ t := by
  have h1 : rndHalfUp x w ≤ rndHalfUp (w * t) w := by
    unfold rndHalfUp
    exact Nat.div_le_div_right (by omega)
  rw [rndHalfUp_mul w t hw] at h1
  exact h1

theorem resize_id (w h : ℕ) (hw : 0 < w) (hh : 0 < h) :
    resize_dimensions w h w h = (w, h) := by
  unfold resize_dimensions
  rw [if_pos (le_of_eq (Nat.mul_comm w h))]
  rw [rndHalfUp_mul w w hw]
  rw [Nat.mul_comm h w, rndHalfUp_mul w h hw]
  rw [Nat.max_eq_left (by omega), Nat.max_eq_left (by omega)]

theorem resize_le (w h nw nh : ℕ) (hw : 0 < w) (hh : 0 < h)
    (hnw : nw ≤ 80) (hnh : nh ≤ 80) :
    (resize_dimensions w h nw nh).1 ≤ 80 ∧
    (resize_dimensions w h nw nh).2 ≤ 80 := by
  unfold resize_dimensions
  by_cases hc : nw * h ≤ nh * w
  · rw [if_pos hc]
    constructor
    · have h1 : rndHalfUp (w * nw) w = nw := rndHalfUp_mul w nw hw
      exact max_le (by rw [h1]; exact hnw) (by omega)
    · have h1 : rndHalfUp (h * nw) w ≤ nh := by
        apply rndHalfUp_le (h * nw) w nh hw
        calc h * nw = nw * h := Nat.mul_comm h nw
          _ ≤ nh * w := hc
          _ = w * nh := Nat.mul_comm nh w
      exact max_le (le_trans h1 hnh) (by omega)
  · rw [if_neg hc]
    have hc2 : nh * w ≤ nw * h := le_of_not_le hc
    constructor
    · have h1 : rndHalfUp (w * nh) h ≤ nw := by
        apply rndHalfUp_le (w * nh) h nw hh
        calc w * nh = nh * w := Nat.mul_comm w nh
          _ ≤ nw * h := hc2
          _ = h * nw := Nat.mul_comm nw h
      exact max_le (le_trans h1 hnw) (by omega)
    · have h1 : rndHalfUp (h * nh) h = nh := rndHalfUp_mul h nh hh
      exact max_le (by rw [h1]; exact hnh) (by omega)

/-- Any requested dimension is at most 80: the `f32` chain
`(dim as f32) * (80f32 / (max as f32))`, truncated, stays below 81. -/
theorem requested_upper (w M : ℕ) (hw : 0 < w) (hM : 81 ≤ M) (hwM : w ≤ M) :
    pqFloor (roundF32 (pqMul (roundF32 ⟨w, 1⟩)
      (roundF32 (pqDiv ⟨80, 1⟩ (roundF32 ⟨M, 1⟩))))) ≤ 80 := by
  have hMq : (81 : ℚ) ≤ (M : ℚ) := by exact_mod_cast hM
  have hwq : (w : ℚ) ≤ (M : ℚ) := by exact_mod_cast hwM
  have hw0 : (0 : ℚ) ≤ (w : ℚ) := Nat.cast_nonneg w
  obtain ⟨hFMl, hFMu⟩ := roundF32_bounds ⟨M, 1⟩ (by norm_num)
  rw [toQ_nat] at hFMl hFMu
  set FM : ℚ := toQ (roundF32 ⟨M, 1⟩) with hFMdef
  have hDpos : (0 : ℚ) < (M : ℚ) * (1 - 1 / 16777216) := by nlinarith
  have hFMpos : 0 < FM := lt_of_lt_of_le hDpos hFMl
  have hdratio : 0 < (pqDiv ⟨80, 1⟩ (roundF32 ⟨M, 1⟩)).den := by
    show 0 < 1 * (roundF32 ⟨M, 1⟩).num
    rw [Nat.one_mul]
    exact (roundF32_spec ⟨M, 1⟩ (by show 0 < M; omega) (by norm_num)).1
  have hratioval : toQ (pqDiv ⟨80, 1⟩ (roundF32 ⟨M, 1⟩)) = 80 / FM := by
    rw [toQ_div]
    rw [show toQ ⟨80, 1⟩ = (80 : ℚ) from toQ_nat 80]
  obtain ⟨hRl, hRu⟩ := roundF32_bounds (pqDiv ⟨80, 1⟩ (roundF32 ⟨M, 1⟩)) hdratio
  rw [hratioval] at hRl hRu
  set R : ℚ := toQ (roundF32 (pqDiv ⟨80, 1⟩ (roundF32 ⟨M, 1⟩))) with hRdef
  have hR0 : 0 ≤ R := toQ_nonneg _
  obtain ⟨hFWl, hFWu⟩ := roundF32_bounds ⟨w, 1⟩ (by norm_num)
  rw [toQ_nat] at hFWl hFWu
  set FW : ℚ := toQ (roundF32 ⟨w, 1⟩) with hFWdef
  have hFW0 : 0 ≤ FW := toQ_nonneg _
  have hdprod : 0 < (pqMul (roundF32 ⟨w, 1⟩)
      (roundF32 (pqDiv ⟨80, 1⟩ (roundF32 ⟨M, 1⟩)))).den :=
    Nat.mul_pos (roundF32_den_pos _) (roundF32_den_pos _)
  obtain ⟨hFl, hFu⟩ := roundF32_bounds (pqMul (roundF32 ⟨w, 1⟩)
      (roundF32 (pqDiv ⟨80, 1⟩ (roundF32 ⟨M, 1⟩)))) hdprod
  rw [toQ_mul] at hFl hFu
  rw [← hFWdef, ← hRdef] at hFl hFu
  have hFMinv : 80 / FM ≤ 80 / ((M : ℚ) * (1 - 1 / 16777216)) := by
    rw [div_le_div_iff hFMpos hDpos]
    nlinarith [hFMl]
  have hRup2 : R ≤ 80 / ((M : ℚ) * (1 - 1 / 16777216)) * (1 + 1 / 16777216) :=
    le_trans hRu (mul_le_mul_of_nonneg_right hFMinv (by norm_num))
  have hFWM : FW ≤ (M : ℚ) * (1 + 1 / 16777216) :=
    le_trans hFWu (by nlinarith)
  have hFWR : FW * R ≤ (M : ℚ) * (1 + 1 / 16777216) *
      (80 / ((M : ℚ) * (1 - 1 / 16777216)) * (1 + 1 / 16777216)) :=
    mul_le_mul hFWM hRup2 hR0 (by positivity)
  have hM0 : (M : ℚ) ≠ 0 := by positivity
  have hsimp : (M : ℚ) * (1 + 1 / 16777216) *
      (80 / ((M : ℚ) * (1 - 1 / 16777216)) * (1 + 1 / 16777216))
      = 80 * (1 + 1 / 16777216) ^ 2 / (1 - 1 / 16777216) := by
    field_simp
    ring
  rw [hsimp] at hFWR
  have hF : toQ (roundF32 (pqMul (roundF32 ⟨w, 1⟩)
      (roundF32 (pqDiv ⟨80, 1⟩ (roundF32 ⟨M, 1⟩)))))
      ≤ 80 * (1 + 1 / 16777216) ^ 2 / (1 - 1 / 16777216) * (1 + 1 / 16777216) :=
    le_trans hFu (mul_le_mul_of_nonneg_right hFWR (by norm_num))
  have hnum : (80 : ℚ) * (1 + 1 / 16777216) ^ 2 / (1 - 1 / 16777216) *
      (1 + 1 / 16777216) < 81 := by norm_num
  rw [pqFloor_eq]
  have hlt : ⌊toQ (roundF32 (pqMul (roundF32 ⟨w, 1⟩)
      (roundF32 (pqDiv ⟨80, 1⟩ (roundF32 ⟨M, 1⟩)))))⌋₊ < 81 :=
    (Nat.floor_lt (toQ_nonneg _)).mpr (by push_cast; linarith [hF, hnum])
  omega

/-- The requested size of the largest dimension is at least 79. -/
theorem requested_lower_sq (M : ℕ) (hM : 81 ≤ M) :
    79 ≤ pqFloor (roundF32 (pqMul (roundF32 ⟨M, 1⟩)
      (roundF32 (pqDiv ⟨80, 1⟩ (roundF32 ⟨M, 1⟩))))) := by
  have hMq : (81 : ℚ) ≤ (M : ℚ) := by exact_mod_cast hM
  obtain ⟨hFMl, hFMu⟩ := roundF32_bounds ⟨M, 1⟩ (by norm_num)
  rw [toQ_nat] at hFMl hFMu
  set FM : ℚ := toQ (roundF32 ⟨M, 1⟩) with hFMdef
  have hDpos : (0 : ℚ) < (M : ℚ) * (1 - 1 / 16777216) := by nlinarith
  have hFMpos : 0 < FM := lt_of_lt_of_le hDpos hFMl
  have hdratio : 0 < (pqDiv ⟨80, 1⟩ (roundF32 ⟨M, 1⟩)).den := by
    show 0 < 1 * (roundF32 ⟨M, 1⟩).num
    rw [Nat.one_mul]
    exact (roundF32_spec ⟨M, 1⟩ (by show 0 < M; omega) (by norm_num)).1
  have hratioval : toQ (pqDiv ⟨80, 1⟩ (roundF32 ⟨M, 1⟩)) = 80 / FM := by
    rw [toQ_div]
    rw [show toQ ⟨80, 1⟩ = (80 : ℚ) from toQ_nat 80]
  obtain ⟨hRl, hRu⟩ := roundF32_bounds (pqDiv ⟨80, 1⟩ (roundF32 ⟨M, 1⟩)) hdratio
  rw [hratioval] at hRl hRu
  set R : ℚ := toQ (roundF32 (pqDiv ⟨80, 1⟩ (roundF32 ⟨M, 1⟩))) with hRdef
  have hdprod : 0 < (pqMul (roundF32 ⟨M, 1⟩)
      (roundF32 (pqDiv ⟨80, 1⟩ (roundF32 ⟨M, 1⟩)))).den :=
    Nat.mul_pos (roundF32_den_pos _) (roundF32_den_pos _)
  obtain ⟨hFl, hFu⟩ := roundF32_bounds (pqMul (roundF32 ⟨M, 1⟩)
      (roundF32 (pqDiv ⟨80, 1⟩ (roundF32 ⟨M, 1⟩)))) hdprod
  rw [toQ_mul] at hFl hFu
  rw [← hFMdef, ← hRdef] at hFl hFu
  have hkey : 80 * (1 - 1 / 16777216) ≤ FM * R := by
    have h1 := mul_le_mul_of_nonneg_left hRl (le_of_lt hFMpos)
    have h2 : FM * (80 / FM * (1 - 1 / 16777216))
        = 80 * (1 - 1 / 16777216) * (FM / FM) := by ring
    rw [h2, div_self (ne_of_gt hFMpos)] at h1
    linarith
  have hF : 80 * (1 - 1 / 16777216) * (1 - 1 / 16777216)
      ≤ toQ (roundF32 (pqMul (roundF32 ⟨M, 1⟩)
        (roundF32 (pqDiv ⟨80, 1⟩ (roundF32 ⟨M, 1⟩))))) := by
    have h3 := mul_le_mul_of_nonneg_right hkey
      (by norm_num : (0 : ℚ) ≤ 1 - 1 / 16777216)
    linarith
  have hnum : (79 : ℚ) ≤ 80 * (1 - 1 / 16777216) * (1 - 1 / 16777216) := by
    norm_num
  rw [pqFloor_eq]
  exact Nat.le_floor (by push_cast; linarith [hF, hnum])

/-- C6 counterexample: a 133 × 133 image triggers the downscaling branch
but comes out 79 × 79, not with maximum dimension 80. -/
theorem C6_counterexample :
    80 < 133 ∧
    convert_image_to_text_dims 133 133 = (79, 79) ∧
    ¬(max (convert_image_to_text_dims 133 133).1
        (convert_image_to_text_dims 133 133).2 = 80) := by decide

/-- C6 (amended): when both dimensions are at most 80 the output equals
the input dimensions; when either exceeds 80 the image is downscaled to
fit, i.e. both output dimensions are at most 80; and for a square
oversized image the output is t × t with t = 79 or t = 80 — the exact
value 80 is not always reached because the `f32` ratio `80 / max(w, h)`
times the dimension can truncate to 79. -/
theorem C6_downscale (w h : ℕ) (hw : 0 < w) (hh : 0 < h) :
    ((w ≤ 80 ∧ h ≤ 80) → convert_image_to_text_dims w h = (w, h)) ∧
    ((80 < w ∨ 80 < h) →
      (convert_image_to_text_dims w h).1 ≤ 80 ∧
      (convert_image_to_text_dims w h).2 ≤ 80) ∧
    (80 < w → w = h →
      convert_image_to_text_dims w h = (79, 79) ∨
      convert_image_to_text_dims w h = (80, 80)) := by
  refine ⟨?_, ?_, ?_⟩
  · rintro ⟨h80w, h80h⟩
    unfold convert_image_to_text_dims
    rw [if_neg (by omega : ¬(80 < w ∨ 80 < h))]
    exact resize_id w h hw hh
  · intro hgt
    unfold convert_image_to_text_dims
    rw [if_pos hgt]
    have hM : 81 ≤ max w h := by omega
    apply resize_le w h _ _ hw hh
    · exact requested_upper w (max w h) hw hM (le_max_left w h)
    · exact requested_upper h (max w h) hh hM (le_max_right w h)
  · intro h80 heq
    subst heq
    unfold convert_image_to_text_dims
    rw [if_pos (Or.inl h80)]
    have hreq : requestedDims w w
        = (pqFloor (roundF32 (pqMul (roundF32 ⟨w, 1⟩)
            (roundF32 (pqDiv ⟨80, 1⟩ (roundF32 ⟨w, 1⟩))))),
           pqFloor (roundF32 (pqMul (roundF32 ⟨w, 1⟩)
            (roundF32 (pqDiv ⟨80, 1⟩ (roundF32 ⟨w, 1⟩)))))) := by
      unfold requestedDims
      rw [Nat.max_self]
    rw [hreq]
    set t : ℕ := pqFloor (roundF32 (pqMul (roundF32 ⟨w, 1⟩)
      (roundF32 (pqDiv ⟨80, 1⟩ (roundF32 ⟨w, 1⟩))))) with htdef
    have ht80 : t ≤ 80 := requested_upper w w hw (by omega) le_rfl
    have ht79 : 79 ≤ t := requested_lower_sq w (by omega)
    have hres : resize_dimensions w w t t = (t, t) := by
      unfold resize_dimensions
      rw [if_pos le_rfl]
      rw [rndHalfUp_mul w t hw]
      rw [Nat.max_eq_left (by omega)]
    rw [hres]
    have hcase : t = 79 ∨ t = 80 := by omega
    rcases hcase with hc | hc
    · left
      rw [hc]
    · right
      rw [hc]

theorem C6_downscale_witness :
    (0 : ℕ) < 133 ∧ (0 : ℕ) < 133 ∧
    (80 < 133 → 133 = 133 →
      convert_image_to_text_dims 133 133 = (79, 79) ∨
      convert_image_to_text_dims 133 133 = (80, 80)) :=
  ⟨by decide, by decide,
    ((C6_downscale 133 133 (by decide) (by decide)).2.2 : _)⟩

end PixelSays
